import Mathlib

/-!
# lb: the load-generation harness of `lb.go`

A shallow embedding of `worker`, `waitResult`, `reportResult` and of the start
protocol of `runBenchmark`, `waitReady` and `worker` from `src/lb.go`, followed
by the properties proved about them.

Conventions of the embedding.

* Go `int` is taken at its width of 64 bits: a value is an integer (`Int`) and
  the additions, the product and the quotient of `reportResult` wrap to the
  range from `-2^63` to `2^63 - 1` (`wrapInt`). The flags `n` and `c` are taken
  as naturals, negative flag values are outside the model.
* `float64` is modelled exactly where the source converts integers through it
  (`num_per_worker`): a finite non-negative double is a pair mantissa/exponent and
  conversion and division round to 53 significant bits, ties to even.  The
  exponent is unbounded; for operands that are Go ints (below `2^63`) no
  quotient leaves the normal range of a double, so nothing is lost.
* The figures of the report are computed over exact rationals, `Duration.Seconds`
  included; a floating division by zero (an infinity or NaN in Go, never a
  fault) is `none`.
* A `time.Time` is a signed number of nanoseconds from Go's zero `Time`, on one
  linear clock; the zero `Time` is `0`, earlier instants are negative. A
  `Duration` is a signed 64-bit number of nanoseconds and `Time.Sub` saturates.
-/

namespace Lb

/-! ## float64 as used by `worker` -/

/-- A finite non-negative double with value `man * 2 ^ exp`. -/
structure Float64 where
  man : Nat
  exp : Int
  deriving DecidableEq

/-- Position of the leading bit, by halving (`fuel` bounds the number of halvings). -/
def ilog2Aux : Nat → Nat → Nat
  | 0, _ => 0
  | fuel + 1, n => if n < 2 then 0 else ilog2Aux fuel (n / 2) + 1

/-- Floor of the binary logarithm (`0` at `0`). -/
def ilog2 (n : Nat) : Nat := ilog2Aux n n

/-- Nearest integer to `num / den`, ties to the even neighbour. -/
def roundHalfEven (num den : Nat) : Nat :=
  let q := num / den
  let r := num % den
  if 2 * r < den then q
  else if den < 2 * r then q + 1
  else if q % 2 = 0 then q else q + 1

/-- The conversion `float64(n)` of a non-negative Go int: exact up to `2^53`,
rounded to 53 significant bits above. -/
def float64OfInt (n : Nat) : Float64 :=
  if n ≤ 2 ^ 53 then ⟨n, 0⟩
  else ⟨roundHalfEven n (2 ^ (ilog2 n - 52)), ((ilog2 n - 52 : Nat) : Int)⟩

/-- The quotient `a / b` of two doubles, rounded to 53 significant bits.
`none` stands for the non-finite results of a zero divisor (`±Inf`, `NaN`). -/
def Float64.div (a b : Float64) : Option Float64 :=
  if b.man = 0 then none
  else if a.man = 0 then some ⟨0, 0⟩
  else
    let t0 : Int := 52 + (ilog2 b.man : Int) - (ilog2 a.man : Int)
    let t : Int :=
      if 2 ^ 52 * (b.man * 2 ^ (-t0).toNat) ≤ a.man * 2 ^ t0.toNat then t0 else t0 + 1
    some ⟨roundHalfEven (a.man * 2 ^ t.toNat) (b.man * 2 ^ (-t).toNat), a.exp - b.exp - t⟩

/-- The function `math.Ceil` on a finite non-negative double. -/
def Float64.ceil (a : Float64) : Float64 :=
  if 0 ≤ a.exp then a
  else ⟨(a.man + 2 ^ (-a.exp).toNat - 1) / 2 ^ (-a.exp).toNat, 0⟩

/-- The conversion `int(f)`: truncation; `none` when the value does not fit a
64-bit int (Go leaves that result to the implementation). -/
def Float64.toInt (a : Float64) : Option Int :=
  let v : Nat := if 0 ≤ a.exp then a.man * 2 ^ a.exp.toNat else a.man / 2 ^ (-a.exp).toNat
  if v < 2 ^ 63 then some (v : Int) else none

/-- The expression `int(math.Ceil(float64(num) / float64(c.Int("c"))))` of `worker`. -/
def num_per_worker (num c : Nat) : Option Int :=
  match (float64OfInt num).div (float64OfInt c) with
  | none => none
  | some q => q.ceil.toInt

/-- Ceiling of `n / c` over the naturals, the share the specification names. -/
def ceilDiv (n c : Nat) : Nat := (n + c - 1) / c

/-! ## Go ints, instants and durations -/

/-- Least value of Go's `int`. -/
def minInt : Int := -(2 ^ 63)

/-- Greatest value of Go's `int`. -/
def maxInt : Int := 2 ^ 63 - 1

/-- The value a Go `int` operation leaves when its exact result is `x`:
two's-complement wrap-around to 64 bits. -/
def wrapInt (x : Int) : Int := (x + 2 ^ 63) % 2 ^ 64 - 2 ^ 63

/-- Instants: nanoseconds from Go's zero `Time`, negative before it. -/
abbrev Time := Int

/-- The constant `minDuration` of package `time`. -/
def minDuration : Int := -(2 ^ 63)

/-- The constant `maxDuration` of package `time`. -/
def maxDuration : Int := 2 ^ 63 - 1

/-- The method `Time.IsZero`. -/
def Time.IsZero (t : Time) : Bool := decide (t = 0)

/-- The method `t.After(u)`. -/
def Time.After (t u : Time) : Bool := decide (u < t)

/-- The method `t.Before(u)`. -/
def Time.Before (t u : Time) : Bool := decide (t < u)

/-- The method `t.Sub(u)`, a `Duration` in nanoseconds: the difference, or
`maxDuration` or `minDuration` when the difference does not fit a `Duration`. -/
def Time.Sub (t u : Time) : Int :=
  if maxDuration < t - u then maxDuration
  else if t - u < minDuration then minDuration
  else t - u

/-- The method `Duration.Seconds`, over exact arithmetic. -/
def seconds (d : Int) : ℚ := (d : ℚ) / 1000000000

/-! ## Results, jobs and the worker -/

/-- Modelled from the spec: the declaration of `Result` is not in `lb.go`; these
are the fields `lb.go` reads and writes, with the types it uses them at. -/
structure Result where
  wid : Int
  startTime : Time
  endTime : Time
  elapsedTime : ℚ
  count : Int
  success : Int

/-- The zero value `var result Result`, sent as the ready sentinel and used by
`make([]Result, n)`. -/
def Result.zero : Result := ⟨0, 0, 0, 0, 0, 0⟩

/-- Modelled from the spec: the interface `Job` is not declared in `lb.go`; these
are the methods `worker` calls, acting on the job's own state `σ`. -/
structure Job (σ : Type) where
  Init : Int → σ → σ
  Request : σ → Bool × σ
  IncSuccess : σ → σ
  IncCount : σ → σ
  Finish : σ → σ
  GetCount : σ → Int
  GetSuccess : σ → Int
  GetVerbose : σ → Int

/-- One pass of the body of the loop of `worker`. -/
def workerStep {σ : Type} (job : Job σ) (s : σ) : σ :=
  let p := job.Request s
  let s1 := if p.1 then job.IncSuccess p.2 else p.2
  job.IncCount s1

/-- The loop `for i := 0; i < num_per_worker; i++` of `worker`: the job's state
after `k` iterations. -/
def workerLoop {σ : Type} (job : Job σ) : Nat → σ → σ
  | 0, s => s
  | k + 1, s => workerLoop job k (workerStep job s)

/-- The function `worker` between its two sends: the final `Result` it emits.
`now0` and `now1` are the two readings of `time.Now()`. -/
def worker {σ : Type} (wid : Int) (num c : Nat) (job : Job σ) (s0 : σ)
    (now0 now1 : Time) : Option Result :=
  match num_per_worker num c with
  | none => none
  | some npw =>
    let s1 := job.Init wid s0
    let s2 := workerLoop job npw.toNat s1
    let s3 := job.Finish s2
    some
      { wid := wid
        startTime := now0
        endTime := now1
        elapsedTime := seconds (Time.Sub now1 now0)
        count := job.GetCount s3
        success := job.GetSuccess s3 }

/-- State of the counting job: its two counters and the number of requests made. -/
structure Counters where
  count : Int
  success : Int
  calls : Nat

/-- A fresh counting job. -/
def Counters.fresh : Counters := ⟨0, 0, 0⟩

/-- Modelled from the spec: no `Job` implementation is in `lb.go`; this is the job
of the claims, whose `IncSuccess` and `IncCount` each add one to their own counter
and whose `k`-th `Request` returns `outcome k`. -/
def counterJob (outcome : Nat → Bool) : Job Counters where
  Init := fun _ s => s
  Request := fun s => (outcome s.calls, { s with calls := s.calls + 1 })
  IncSuccess := fun s => { s with success := s.success + 1 }
  IncCount := fun s => { s with count := s.count + 1 }
  Finish := fun s => s
  GetCount := fun s => s.count
  GetSuccess := fun s => s.success
  GetVerbose := fun _ => 0

/-! ## Collecting the results -/

/-- Run-time faults of the Go program that the model distinguishes. -/
inductive Fault
  | integerDivideByZero
  | indexOutOfRange
  | deadlock
  deriving DecidableEq

/-- The loop of `waitResult`: each received message is stored at the index given
by its own `wid`; an index outside the slice is a run-time fault. -/
def waitResultLoop : List Result → Nat → List Result → Except Fault (List Result)
  | _, 0, results => .ok results
  | [], _ + 1, _ => .error .deadlock
  | result :: ch, k + 1, results =>
    if 0 ≤ result.wid ∧ result.wid.toNat < results.length then
      waitResultLoop ch k (results.set result.wid.toNat result)
    else .error .indexOutOfRange

/-- The function `waitResult`: `results := make([]Result, n)` and the loop. -/
def waitResult (ch : List Result) (n : Nat) : Except Fault (List Result) :=
  waitResultLoop ch n (List.replicate n Result.zero)

/-! ## The report -/

/-- The four variables that the loop of `reportResult` updates. -/
structure Totals where
  firstTime : Time
  lastTime : Time
  totalRequest : Int
  successRequest : Int

/-- Their zero values before the loop. -/
def Totals.zero : Totals := ⟨0, 0, 0, 0⟩

/-- One pass of the body of the loop of `reportResult`. -/
def reportStep (a : Totals) (r : Result) : Totals :=
  { totalRequest := wrapInt (a.totalRequest + r.count)
    successRequest := wrapInt (a.successRequest + r.success)
    firstTime :=
      if Time.IsZero a.firstTime || Time.After a.firstTime r.startTime then r.startTime
      else a.firstTime
    lastTime := if Time.Before a.lastTime r.endTime then r.endTime else a.lastTime }

/-- The loop `for i := range results` of `reportResult`. -/
def reportLoop (results : List Result) : Totals :=
  results.foldl reportStep Totals.zero

/-- Go's `/` on floats over exact arithmetic; a zero divisor gives an infinity
or NaN, never a fault. -/
def floatDiv (a b : ℚ) : Option ℚ :=
  if b = 0 then none else some (a / b)

/-- Go's `/` on ints: truncated quotient (wrapped, for `minInt / -1`), and a
run-time fault on a zero divisor. -/
def intDiv (a b : Int) : Except Fault Int :=
  if b = 0 then .error .integerDivideByZero else .ok (wrapInt (Int.tdiv a b))

/-- The lines `reportResult` prints before it computes the success rate: the
verbose line of each worker (flag `v` at least 2) and the first three figures. -/
structure ReportHead where
  workerLines : List (Int × Option ℚ × ℚ)
  concurrency : Int
  totalRequest : Int
  successRequest : Int

/-- The figures `reportResult` prints from the success rate on, in the order of
the source (the two figures that come from the runtime are left out). -/
structure ReportTail where
  successRate : Int
  takenTime : ℚ
  requestsPerSecond : Option ℚ
  timePerRequest : Option ℚ
  timePerRequestAll : Option ℚ

/-- The span `lastTime.Sub(firstTime).Seconds()` that `reportResult` computes. -/
def takenTime (results : List Result) : ℚ :=
  seconds (Time.Sub (reportLoop results).lastTime (reportLoop results).firstTime)

/-- The function `reportResult`; `verbose` and `concurrency` are the flags `v`
and `c` read from the context. The first component is what is printed up to
`Success Requests`; the second is the rest of the report, or the fault that
stops the program at the success rate. -/
def reportResult (verbose concurrency : Int) (results : List Result) :
    ReportHead × Except Fault ReportTail :=
  let a := reportLoop results
  let taken := takenTime results
  let rpq := floatDiv (a.totalRequest : ℚ) taken
  ({ workerLines :=
       if 2 ≤ verbose then
         results.map fun r => (r.wid, floatDiv (r.count : ℚ) r.elapsedTime, r.elapsedTime)
       else []
     concurrency := concurrency
     totalRequest := a.totalRequest
     successRequest := a.successRequest },
   match intDiv a.successRequest a.totalRequest with
   | .error e => .error e
   | .ok q =>
     .ok
       { successRate := wrapInt (q * 100)
         takenTime := taken
         requestsPerSecond := rpq
         timePerRequest := floatDiv ((concurrency : ℚ) * taken * 1000) (a.totalRequest : ℚ)
         timePerRequestAll := floatDiv (taken * 1000) (a.totalRequest : ℚ) })

/-! ## The start protocol of `runBenchmark` -/

/-- Where a worker goroutine stands: about to send the ready
sentinel (`tx <- result`, line 25), blocked on the start token (`<- rx`, line 26),
in its timed section (lines 27 to 44, `startTime` set), about to send its final
`Result` (line 45), returned. -/
inductive WorkerPc
  | sendReady
  | awaitStart
  | running
  | sendFinal
  | done
  deriving DecidableEq

/-- A message on the `Result` channel: the zero-valued ready sentinel or the
final `Result` of a worker. -/
inductive Msg
  | ready
  | final (wid : Nat)
  deriving DecidableEq

/-- The send a worker is blocked on, if any, and where it goes next. -/
def WorkerPc.send (wid : Nat) : WorkerPc → Option (Msg × WorkerPc)
  | .sendReady => some (.ready, .awaitStart)
  | .sendFinal => some (.final wid, .done)
  | _ => none

/-- The worker has received its start token. -/
def WorkerPc.pastStart : WorkerPc → Bool
  | .running => true
  | .sendFinal => true
  | .done => true
  | _ => false

/-- The worker has completed the send of its ready sentinel. -/
def WorkerPc.pastReady : WorkerPc → Bool
  | .sendReady => false
  | _ => true

/-- Where `runBenchmark` stands: in the loop that starts the goroutines, in
`waitReady`, in the loop that sends the start tokens, in `waitResult`, or in
`reportResult`; `i` is the loop variable. -/
inductive OrchPc
  | spawn (i : Nat)
  | waitReady (i : Nat)
  | release (i : Nat)
  | waitResult (i : Nat)
  | report
  deriving DecidableEq

/-- The system: the goroutines created so far (worker `w` at position `w`), the
orchestrator, the messages `waitReady` has received and those `waitResult` has. -/
structure Sys where
  workers : List WorkerPc
  orch : OrchPc
  readyLog : List Msg
  results : List Msg
  deriving DecidableEq

/-- State at entry of `runBenchmark`. -/
def Sys.init : Sys := ⟨[], .spawn 0, [], []⟩

/-- The moves of the interleaving: a step of the orchestrator alone, a rendezvous
on the `Result` channel with sender `w`, a rendezvous on the start channel with
receiver `w`, worker `w` running its timed section to the end. -/
inductive Event
  | orch
  | recv (w : Nat)
  | start (w : Nat)
  | work (w : Nat)
  deriving DecidableEq

/-- One move with `n` the value of the flag `c`; `none` when the move is not
enabled. Both channels are unbuffered, so a send and its receive are one move. -/
def step (n : Nat) (s : Sys) : Event → Option Sys
  | .orch =>
    match s.orch with
    | .spawn i =>
      if i < n then some { s with workers := s.workers ++ [.sendReady], orch := .spawn (i + 1) }
      else some { s with orch := .waitReady 0 }
    | .waitReady i => if i < n then none else some { s with orch := .release 0 }
    | .release i => if i < n then none else some { s with orch := .waitResult 0 }
    | .waitResult i => if i < n then none else some { s with orch := .report }
    | .report => none
  | .recv w =>
    match s.workers[w]? with
    | none => none
    | some pc =>
      match pc.send w with
      | none => none
      | some (m, pc') =>
        match s.orch with
        | .waitReady i =>
          if i < n then
            some { s with workers := s.workers.set w pc', orch := .waitReady (i + 1),
                          readyLog := s.readyLog ++ [m] }
          else none
        | .waitResult i =>
          if i < n then
            some { s with workers := s.workers.set w pc', orch := .waitResult (i + 1),
                          results := s.results ++ [m] }
          else none
        | _ => none
  | .start w =>
    match s.orch, s.workers[w]? with
    | .release i, some .awaitStart =>
      if i < n then some { s with workers := s.workers.set w .running, orch := .release (i + 1) }
      else none
    | _, _ => none
  | .work w =>
    match s.workers[w]? with
    | some .running => some { s with workers := s.workers.set w .sendFinal }
    | _ => none

/-- A run: the moves of a schedule in order. -/
def run (n : Nat) : Sys → List Event → Option Sys
  | s, [] => some s
  | s, e :: es =>
    match step n s e with
    | none => none
    | some s' => run n s' es

/-- The states `runBenchmark` can be in, under any schedule. -/
def Reachable (n : Nat) (s : Sys) : Prop :=
  ∃ es : List Event, run n Sys.init es = some s

/-- What holds of the system in each phase of `runBenchmark`. -/
def Inv (n : Nat) (s : Sys) : Prop :=
  match s.orch with
  | .spawn i =>
    s.workers.length = i ∧ i ≤ n ∧ (∀ pc ∈ s.workers, pc = WorkerPc.sendReady) ∧
      s.readyLog = []
  | .waitReady i =>
    s.workers.length = n ∧
      (∀ pc ∈ s.workers, pc = WorkerPc.sendReady ∨ pc = WorkerPc.awaitStart) ∧
      s.workers.countP (fun pc => decide (pc = WorkerPc.awaitStart)) = i ∧
      s.readyLog = List.replicate i Msg.ready
  | _ =>
    s.workers.length = n ∧ (∀ pc ∈ s.workers, pc.pastReady = true) ∧
      s.readyLog = List.replicate n Msg.ready

/-! # Properties -/

/-! ## The share computed through float64 -/

/-- The model against known doubles: `2^53 + 1` converts to `2^53` and `2^53 + 3`
to `2^53 + 4` (ties go to the even mantissa), and `1.0 / 3.0` is
`0x15555555555555 * 2^-54`. -/
theorem float64_known_values :
    float64OfInt 9007199254740993 = ⟨4503599627370496, 1⟩ ∧
    float64OfInt 9007199254740995 = ⟨4503599627370498, 1⟩ ∧
    (float64OfInt 1).div (float64OfInt 3) = some ⟨6004799503160661, -54⟩ := by
  decide

theorem ilog2Aux_spec (fuel : Nat) : ∀ n : Nat, n ≤ fuel → n ≠ 0 →
    2 ^ ilog2Aux fuel n ≤ n ∧ n < 2 ^ (ilog2Aux fuel n + 1) := by
  induction fuel with
  | zero => intro n h h0; omega
  | succ f ih =>
    intro n h h0
    unfold ilog2Aux
    by_cases h2 : n < 2
    · simp only [h2, if_true]
      constructor
      · simp; omega
      · simpa using h2
    · simp only [h2, if_false]
      have hle : n / 2 ≤ f := by omega
      have hne : n / 2 ≠ 0 := by omega
      obtain ⟨h1, h3⟩ := ih (n / 2) hle hne
      constructor
      · rw [pow_succ]; omega
      · rw [pow_succ]; omega

theorem ilog2_le {n : Nat} (h0 : n ≠ 0) : 2 ^ ilog2 n ≤ n :=
  (ilog2Aux_spec n n le_rfl h0).1

theorem lt_ilog2 {n : Nat} (h0 : n ≠ 0) : n < 2 ^ (ilog2 n + 1) :=
  (ilog2Aux_spec n n le_rfl h0).2

theorem roundHalfEven_le {num den N : Nat} (hd : 0 < den) (h : num ≤ N * den) :
    roundHalfEven num den ≤ N := by
  have hq : num / den ≤ N := by
    calc num / den ≤ N * den / den := Nat.div_le_div_right h
      _ = N := Nat.mul_div_cancel _ hd
  have hm := Nat.div_add_mod num den
  have hr : num % den < den := Nat.mod_lt _ hd
  unfold roundHalfEven
  simp only
  rcases Nat.lt_or_ge (num / den) N with hlt | hge
  · split_ifs <;> omega
  · have hqN : num / den = N := le_antisymm hq hge
    have : num % den = 0 := by
      rw [hqN] at hm
      have : den * N = N * den := Nat.mul_comm _ _
      omega
    rw [if_pos (by omega)]
    exact hq

theorem le_roundHalfEven {num den N : Nat} (hd : 0 < den) (h : N * den ≤ num) :
    N ≤ roundHalfEven num den := by
  have hq : N ≤ num / den := (Nat.le_div_iff_mul_le hd).2 h
  unfold roundHalfEven
  simp only
  split_ifs <;> omega

theorem succ_le_roundHalfEven {num den N : Nat} (hd : 0 < den)
    (h : (2 * N + 1) * den < 2 * num) : N + 1 ≤ roundHalfEven num den := by
  have h1 : N * den ≤ num := by nlinarith
  have hq : N ≤ num / den := (Nat.le_div_iff_mul_le hd).2 h1
  have hm := Nat.div_add_mod num den
  have hr : num % den < den := Nat.mod_lt _ hd
  unfold roundHalfEven
  simp only
  rcases Nat.lt_or_ge N (num / den) with hlt | hge
  · split_ifs <;> omega
  · have hqN : num / den = N := le_antisymm hge hq
    have h2 : den < 2 * (num % den) := by
      rw [hqN] at hm
      have : den * N = N * den := Nat.mul_comm _ _
      nlinarith
    rw [if_neg (by omega), if_pos h2]
    omega

theorem roundHalfEven_mul (N den : Nat) (hd : 0 < den) :
    roundHalfEven (N * den) den = N :=
  le_antisymm (roundHalfEven_le hd le_rfl) (le_roundHalfEven hd le_rfl)

theorem Float64.div_spec (a b : Float64) (ha : a.man ≠ 0) (hb : b.man ≠ 0) :
    ∃ t : Int,
      a.div b = some ⟨roundHalfEven (a.man * 2 ^ t.toNat) (b.man * 2 ^ (-t).toNat),
        a.exp - b.exp - t⟩ ∧
      2 ^ 52 * (b.man * 2 ^ (-t).toNat) ≤ a.man * 2 ^ t.toNat ∧
      a.man * 2 ^ t.toNat < 2 ^ 53 * (b.man * 2 ^ (-t).toNat) := by
  have hA1 := ilog2_le ha
  have hA2 := lt_ilog2 ha
  have hB1 := ilog2_le hb
  have hB2 := lt_ilog2 hb
  rw [pow_succ] at hA2 hB2
  generalize hla : ilog2 a.man = la at hA1 hA2
  generalize hlb : ilog2 b.man = lb at hB1 hB2
  unfold Float64.div
  simp only [if_neg hb, if_neg ha, hla, hlb]
  rcases Nat.lt_or_ge (52 + lb) la with hlt | hge
  · -- the quotient is at least `2 ^ 53`: scale the divisor
    obtain ⟨j, hj⟩ : ∃ j : Nat, la = 52 + lb + (j + 1) := ⟨la - 52 - lb - 1, by omega⟩
    have ht0 : (52 + (lb : Int) - (la : Int)) = -((j : Int) + 1) := by omega
    have e1 : (52 + (lb : Int) - (la : Int)).toNat = 0 := by omega
    have e2 : (-(52 + (lb : Int) - (la : Int))).toNat = j + 1 := by omega
    have e3 : (52 + (lb : Int) - (la : Int) + 1).toNat = 0 := by omega
    have e4 : (-(52 + (lb : Int) - (la : Int) + 1)).toNat = j := by omega
    have hp : 2 ^ la = 2 ^ 52 * (2 ^ lb * 2 ^ (j + 1)) := by
      rw [hj, pow_add, pow_add]; ring
    have hJ : 0 < 2 ^ j := Nat.pow_pos (by norm_num)
    have hs : 2 ^ (j + 1) = 2 * 2 ^ j := by rw [pow_succ]; ring
    by_cases hc : 2 ^ 52 * (b.man * 2 ^ (j + 1)) ≤ a.man
    · refine ⟨52 + (lb : Int) - (la : Int), ?_, ?_, ?_⟩
      · simp only [e1, e2, pow_zero, mul_one, if_pos hc]
      · simpa only [e1, e2, pow_zero, mul_one] using hc
      · simp only [e1, e2, pow_zero, mul_one]
        have : 2 ^ lb * 2 ^ (j + 1) ≤ b.man * 2 ^ (j + 1) := Nat.mul_le_mul_right _ hB1
        omega
    · refine ⟨52 + (lb : Int) - (la : Int) + 1, ?_, ?_, ?_⟩
      · simp only [e1, e2, e3, e4, pow_zero, mul_one, if_neg hc]
      · simp only [e3, e4, pow_zero, mul_one]
        have : b.man * 2 ^ j < 2 ^ lb * 2 * 2 ^ j := Nat.mul_lt_mul_of_pos_right hB2 hJ
        rw [hs] at hp
        have e : 2 ^ lb * (2 * 2 ^ j) = 2 ^ lb * 2 * 2 ^ j := by ring
        omega
      · simp only [e3, e4, pow_zero, mul_one]
        rw [hs] at hc
        have e : b.man * (2 * 2 ^ j) = 2 * (b.man * 2 ^ j) := by ring
        omega
  · -- the quotient is below `2 ^ 53`: scale the dividend
    obtain ⟨k, hk⟩ : ∃ k : Nat, 52 + lb = la + k := ⟨52 + lb - la, by omega⟩
    have e1 : (52 + (lb : Int) - (la : Int)).toNat = k := by omega
    have e2 : (-(52 + (lb : Int) - (la : Int))).toNat = 0 := by omega
    have e3 : (52 + (lb : Int) - (la : Int) + 1).toNat = k + 1 := by omega
    have e4 : (-(52 + (lb : Int) - (la : Int) + 1)).toNat = 0 := by omega
    have hp : 2 ^ la * 2 ^ k = 2 ^ 52 * 2 ^ lb := by
      rw [← pow_add, ← pow_add, hk]
    have hK : 0 < 2 ^ k := Nat.pow_pos (by norm_num)
    have hs : 2 ^ (k + 1) = 2 * 2 ^ k := by rw [pow_succ]; ring
    have h1 : a.man * 2 ^ k < 2 ^ la * 2 * 2 ^ k := Nat.mul_lt_mul_of_pos_right hA2 hK
    have h2 : 2 ^ la * 2 ^ k ≤ a.man * 2 ^ k := Nat.mul_le_mul_right _ hA1
    have e : 2 ^ la * 2 * 2 ^ k = 2 * (2 ^ la * 2 ^ k) := by ring
    by_cases hc : 2 ^ 52 * b.man ≤ a.man * 2 ^ k
    · refine ⟨52 + (lb : Int) - (la : Int), ?_, ?_, ?_⟩
      · simp only [e1, e2, pow_zero, mul_one, if_pos hc]
      · simpa only [e1, e2, pow_zero, mul_one] using hc
      · simp only [e1, e2, pow_zero, mul_one]
        omega
    · refine ⟨52 + (lb : Int) - (la : Int) + 1, ?_, ?_, ?_⟩
      · simp only [e1, e2, e3, e4, pow_zero, mul_one, if_neg hc]
      · simp only [e3, e4, pow_zero, mul_one, hs]
        have e5 : a.man * (2 * 2 ^ k) = 2 * (a.man * 2 ^ k) := by ring
        omega
      · simp only [e3, e4, pow_zero, mul_one, hs]
        have e5 : a.man * (2 * 2 ^ k) = 2 * (a.man * 2 ^ k) := by ring
        omega

theorem ceil_toInt_of_neg (M : Nat) {e : Int} (he : e < 0) :
    (Float64.ceil ⟨M, e⟩).toInt =
      if (M + 2 ^ (-e).toNat - 1) / 2 ^ (-e).toNat < 2 ^ 63
      then some (((M + 2 ^ (-e).toNat - 1) / 2 ^ (-e).toNat : Nat) : Int) else none := by
  have h : ¬ (0 ≤ e) := by omega
  simp [Float64.ceil, Float64.toInt, h]

theorem ceil_toInt_of_nonneg (M : Nat) {e : Int} (he : 0 ≤ e) :
    (Float64.ceil ⟨M, e⟩).toInt =
      if M * 2 ^ e.toNat < 2 ^ 63 then some ((M * 2 ^ e.toNat : Nat) : Int) else none := by
  simp [Float64.ceil, Float64.toInt, he]

theorem ceilDiv_spec {n c : Nat} (hc : 0 < c) :
    n ≤ ceilDiv n c * c ∧ ceilDiv n c * c < n + c := by
  unfold ceilDiv
  have h1 := Nat.div_mul_le_self (n + c - 1) c
  have h2 := Nat.lt_div_mul_add (a := n + c - 1) hc
  omega

theorem ceilDiv_le_self {n c : Nat} (hc : 0 < c) (_hn : 0 < n) : ceilDiv n c ≤ n := by
  obtain ⟨h1, h2⟩ := ceilDiv_spec (n := n) hc
  by_contra hlt
  have : (n + 1) * c ≤ ceilDiv n c * c := Nat.mul_le_mul_right _ (by omega)
  have e : (n + 1) * c = n * c + c := by ring
  have : n ≤ n * c := Nat.le_mul_of_pos_right _ hc
  omega

theorem ceilDiv_pos {n c : Nat} (hc : 0 < c) (hn : 0 < n) : 0 < ceilDiv n c := by
  obtain ⟨h1, h2⟩ := ceilDiv_spec (n := n) hc
  by_contra h0
  have : ceilDiv n c = 0 := by omega
  rw [this] at h1
  omega

/-- Rounding a scaled quotient and taking the ceiling gives the exact ceiling,
provided the scaled quotient keeps 53 significant bits and `n ≤ 2 ^ 53`. -/
theorem ceil_round_scaled {n c k : Nat} (hc : 0 < c) (hn : 0 < n) (hn53 : n ≤ 2 ^ 53)
    (hlo : 2 ^ 52 * c ≤ n * 2 ^ k) :
    (roundHalfEven (n * 2 ^ k) c + 2 ^ k - 1) / 2 ^ k = ceilDiv n c := by
  obtain ⟨h1, h2⟩ := ceilDiv_spec (n := n) hc
  have hq := ceilDiv_pos hc hn
  obtain ⟨p, hp⟩ : ∃ p, ceilDiv n c = p + 1 := ⟨ceilDiv n c - 1, by omega⟩
  rw [hp] at h1 h2 ⊢
  have hK : 0 < 2 ^ k := Nat.pow_pos (by norm_num)
  generalize 2 ^ k = K at hlo hK ⊢
  have e1 : (p + 1) * c = p * c + c := by ring
  obtain ⟨d, hd⟩ : ∃ d, n = p * c + d := ⟨n - p * c, by omega⟩
  have hd1 : 1 ≤ d := by omega
  have hnK : n * K = p * K * c + d * K := by rw [hd]; ring
  have hnK2 : n * K ≤ 2 ^ 53 * K := Nat.mul_le_mul_right _ hn53
  have hcK : c ≤ 2 * K := by omega
  -- upper bound of the rounded mantissa
  have hup : roundHalfEven (n * K) c ≤ (p + 1) * K := by
    apply roundHalfEven_le hc
    have : n * K ≤ (p + 1) * c * K := Nat.mul_le_mul_right _ h1
    have e : (p + 1) * c * K = (p + 1) * K * c := by ring
    omega
  -- lower bound of the rounded mantissa
  have hlow : p * K + 1 ≤ roundHalfEven (n * K) c := by
    apply succ_le_roundHalfEven hc
    have e : (2 * (p * K) + 1) * c = 2 * (p * K * c) + c := by ring
    rw [e, hnK]
    rcases Nat.lt_or_ge d 2 with hd2 | hd2
    · have hd' : d = 1 := by omega
      subst hd'
      rw [one_mul] at hnK ⊢
      by_contra hcon
      have hc2 : c = 2 * K := by omega
      have h53 : 2 ^ 53 * K ≤ n * K := by omega
      have hn' : 2 ^ 53 ≤ n := Nat.le_of_mul_le_mul_right h53 hK
      have e2 : p * c = 2 * (p * K) := by rw [hc2]; ring
      omega
    · have : 2 * K ≤ d * K := Nat.mul_le_mul_right _ hd2
      omega
  have e2 : (p + 1) * K = p * K + K := by ring
  apply Nat.div_eq_of_lt_le
  · omega
  · have e3 : (p + 1 + 1) * K = p * K + K + K := by ring
    show _ < (p + 1 + 1) * K
    omega

theorem float64OfInt_large {c : Nat} (hc : 2 ^ 53 < c) :
    ∃ m s : Nat, float64OfInt c = ⟨m, (s : Int)⟩ ∧ 1 ≤ s ∧ 2 ^ 52 ≤ m := by
  have h0 : c ≠ 0 := by omega
  have h1 := ilog2_le h0
  have h2 := lt_ilog2 h0
  have hL : 53 ≤ ilog2 c := by
    by_contra hcon
    have : 2 ^ (ilog2 c + 1) ≤ 2 ^ 53 := Nat.pow_le_pow_right (by norm_num) (by omega)
    omega
  refine ⟨roundHalfEven c (2 ^ (ilog2 c - 52)), ilog2 c - 52, ?_, by omega, ?_⟩
  · unfold float64OfInt
    rw [if_neg (by omega)]
  · apply le_roundHalfEven (Nat.pow_pos (by norm_num))
    rw [← pow_add]
    have : 52 + (ilog2 c - 52) = ilog2 c := by omega
    rw [this]
    exact h1

/-- Up to `2 ^ 53` total iterations the float computation of the share is the
exact ceiling. -/
theorem num_per_worker_eq_ceilDiv {n c : Nat} (hc : 1 ≤ c) (hn : 1 ≤ n) (hn53 : n ≤ 2 ^ 53) :
    num_per_worker n c = some ((ceilDiv n c : Nat) : Int) := by
  have hq53 : ceilDiv n c < 2 ^ 63 := by
    have := ceilDiv_le_self (n := n) (c := c) hc hn
    omega
  have hfn : float64OfInt n = ⟨n, 0⟩ := by unfold float64OfInt; rw [if_pos hn53]
  unfold num_per_worker
  rw [hfn]
  rcases Nat.lt_or_ge (2 ^ 53) c with hbig | hsmall
  · -- more workers than `2 ^ 53`: the quotient is at most one
    obtain ⟨m, s, hfc, hs, hm⟩ := float64OfInt_large hbig
    rw [hfc]
    obtain ⟨t, hdiv, hlo, hhi⟩ :=
      Float64.div_spec ⟨n, 0⟩ ⟨m, (s : Int)⟩ (by simp; omega) (by simp; omega)
    simp only at hdiv hlo hhi
    rw [hdiv]
    simp only
    have hJ : 0 < 2 ^ (-t).toNat := Nat.pow_pos (by norm_num)
    have htpos : 0 < t := by
      by_contra hcon
      have e : t.toNat = 0 := by omega
      rw [e, pow_zero, mul_one] at hlo
      have : m * 1 ≤ m * 2 ^ (-t).toNat := Nat.mul_le_mul_left _ hJ
      omega
    obtain ⟨k, hk⟩ : ∃ k : Nat, t = (k : Int) := ⟨t.toNat, by omega⟩
    subst hk
    have e1 : ((k : Int)).toNat = k := by omega
    have e2 : (-(k : Int)).toNat = 0 := by omega
    rw [e1, e2, pow_zero, mul_one] at hlo hhi ⊢
    have hexp : (0 : Int) - (s : Int) - (k : Int) < 0 := by omega
    rw [ceil_toInt_of_neg _ hexp]
    have e3 : (-((0 : Int) - (s : Int) - (k : Int))).toNat = s + k := by omega
    rw [e3]
    have hm0 : 0 < m := by omega
    have hS : 2 ≤ 2 ^ s := by
      calc 2 = 2 ^ 1 := by norm_num
        _ ≤ 2 ^ s := Nat.pow_le_pow_right (by norm_num) hs
    have hK : 0 < 2 ^ k := Nat.pow_pos (by norm_num)
    have hms : 2 * m ≤ 2 ^ s * m := Nat.mul_le_mul_right _ hS
    have hM1 : 1 ≤ roundHalfEven (n * 2 ^ k) m := by
      have : 2 ^ 52 ≤ roundHalfEven (n * 2 ^ k) m := le_roundHalfEven hm0 hlo
      omega
    have hM2 : roundHalfEven (n * 2 ^ k) m ≤ 2 ^ (s + k) := by
      apply roundHalfEven_le hm0
      have : n * 2 ^ k ≤ 2 ^ s * m * 2 ^ k := Nat.mul_le_mul_right _ (by omega)
      have e : 2 ^ (s + k) * m = 2 ^ s * m * 2 ^ k := by rw [pow_add]; ring
      omega
    have hSK : 0 < 2 ^ (s + k) := Nat.pow_pos (by norm_num)
    have hone : (roundHalfEven (n * 2 ^ k) m + 2 ^ (s + k) - 1) / 2 ^ (s + k) = 1 := by
      apply Nat.div_eq_of_lt_le
      · omega
      · show _ < (1 + 1) * 2 ^ (s + k)
        omega
    have hcd : ceilDiv n c = 1 := by
      unfold ceilDiv
      apply Nat.div_eq_of_lt_le
      · omega
      · show _ < (1 + 1) * c
        omega
    rw [hone, hcd]
    simp
  · -- at most `2 ^ 53` workers: the divisor is exact
    have hfc : float64OfInt c = ⟨c, 0⟩ := by unfold float64OfInt; rw [if_pos hsmall]
    rw [hfc]
    obtain ⟨t, hdiv, hlo, hhi⟩ :=
      Float64.div_spec ⟨n, 0⟩ ⟨c, 0⟩ (by simp; omega) (by simp; omega)
    simp only at hdiv hlo hhi
    rw [hdiv]
    simp only
    rcases lt_or_ge 0 t with htpos | htneg
    · obtain ⟨k, hk⟩ : ∃ k : Nat, t = (k : Int) := ⟨t.toNat, by omega⟩
      subst hk
      have e1 : ((k : Int)).toNat = k := by omega
      have e2 : (-(k : Int)).toNat = 0 := by omega
      rw [e1, e2, pow_zero, mul_one] at hlo hhi ⊢
      have hexp : (0 : Int) - 0 - (k : Int) < 0 := by omega
      rw [ceil_toInt_of_neg _ hexp]
      have e3 : (-((0 : Int) - 0 - (k : Int))).toNat = k := by omega
      rw [e3, ceil_round_scaled hc hn hn53 hlo, if_pos hq53]
    · obtain ⟨j, hj⟩ : ∃ j : Nat, t = -(j : Int) := ⟨(-t).toNat, by omega⟩
      subst hj
      have e1 : (-(j : Int)).toNat = 0 := by omega
      have e2 : (-(-(j : Int))).toNat = j := by omega
      rw [e1, e2, pow_zero, mul_one] at hlo hhi ⊢
      have hexp : (0 : Int) ≤ 0 - 0 - -(j : Int) := by omega
      rw [ceil_toInt_of_nonneg _ hexp]
      have e3 : ((0 : Int) - 0 - -(j : Int)).toNat = j := by omega
      rw [e3]
      have hJ : 0 < 2 ^ j := Nat.pow_pos (by norm_num)
      have hcJ : c * 2 ^ j ≤ 2 := by omega
      have hcJ1 : c * 1 ≤ c * 2 ^ j := Nat.mul_le_mul_left _ hJ
      have hcJ2 : 1 * 2 ^ j ≤ c * 2 ^ j := Nat.mul_le_mul_right _ hc
      rcases Nat.eq_zero_or_pos j with hj0 | hjpos
      · -- no scaling: `c` is `1` or `2`
        subst hj0
        simp only [pow_zero, mul_one] at hlo hcJ ⊢
        have hval : roundHalfEven n c = ceilDiv n c := by
          rcases Nat.lt_or_ge c 2 with h1 | h2
          · have hc1 : c = 1 := by omega
            subst hc1
            have := roundHalfEven_mul n 1 (by norm_num)
            rw [mul_one] at this
            rw [this]
            simp [ceilDiv]
          · have hc2 : c = 2 := by omega
            subst hc2
            have hn' : n = 2 ^ 52 * 2 := by omega
            rw [hn', roundHalfEven_mul (2 ^ 52) _ (by norm_num)]
            simp [ceilDiv]
        rw [hval, if_pos hq53]
      · -- the divisor is scaled by two: `c = 1` and `n = 2 ^ 53`
        have hj1 : j = 1 := by
          by_contra hne
          have : 2 ^ 2 ≤ 2 ^ j := Nat.pow_le_pow_right (by norm_num) (by omega)
          omega
        subst hj1
        have hc1 : c = 1 := by omega
        subst hc1
        have hn' : n = 2 ^ 52 * (1 * 2 ^ 1) := by omega
        rw [hn', roundHalfEven_mul (2 ^ 52) _ (by norm_num)]
        simp [ceilDiv]

theorem float64OfInt_man_ne_zero {c : Nat} (hc : 1 ≤ c) : (float64OfInt c).man ≠ 0 := by
  rcases Nat.lt_or_ge (2 ^ 53) c with hbig | hsmall
  · obtain ⟨m, s, hfc, _, hm⟩ := float64OfInt_large hbig
    rw [hfc]
    simp only
    omega
  · unfold float64OfInt
    rw [if_pos hsmall]
    simp only
    omega

theorem num_per_worker_zero {c : Nat} (hc : 1 ≤ c) : num_per_worker 0 c = some 0 := by
  have hb := float64OfInt_man_ne_zero hc
  have ha : float64OfInt 0 = ⟨0, 0⟩ := by decide
  have hd : (float64OfInt 0).div (float64OfInt c) = some ⟨0, 0⟩ := by
    unfold Float64.div
    rw [if_neg hb, ha, if_pos rfl]
  unfold num_per_worker
  rw [hd]
  decide

theorem wrapInt_of_fits {x : Int} (h1 : minInt ≤ x) (h2 : x ≤ maxInt) : wrapInt x = x := by
  unfold minInt at h1
  unfold maxInt at h2
  unfold wrapInt
  omega

theorem wrapInt_fits (x : Int) : minInt ≤ wrapInt x ∧ wrapInt x ≤ maxInt := by
  unfold minInt maxInt wrapInt
  omega

theorem wrapInt_wrapInt_add (a b : Int) : wrapInt (wrapInt a + b) = wrapInt (a + b) := by
  unfold wrapInt
  omega

theorem intDiv_self {a : Int} (h : 0 < a) : intDiv a a = .ok 1 := by
  have ha : a ≠ 0 := by omega
  unfold intDiv
  rw [if_neg ha, Int.tdiv_self ha]
  rfl

/-! ## The worker loop with the counting job -/

theorem workerLoop_counterJob (outcome : Nat → Bool) (k : Nat) (s : Counters) :
    (workerLoop (counterJob outcome) k s).count = s.count + (k : Int) ∧
    (workerLoop (counterJob outcome) k s).success =
      s.success + ((List.range' s.calls k).countP outcome : Int) ∧
    (workerLoop (counterJob outcome) k s).calls = s.calls + k := by
  induction k generalizing s with
  | zero => simp [workerLoop]
  | succ k ih =>
    obtain ⟨h1, h2, h3⟩ := ih (workerStep (counterJob outcome) s)
    rw [workerLoop, h1, h2, h3]
    cases ho : outcome s.calls <;>
      simp [workerStep, counterJob, ho, List.range', List.countP_cons] <;> omega

theorem workerLoop_fresh (outcome : Nat → Bool) (k : Nat) :
    (workerLoop (counterJob outcome) k Counters.fresh).count = (k : Int) ∧
    (workerLoop (counterJob outcome) k Counters.fresh).success =
      ((List.range k).countP outcome : Int) := by
  obtain ⟨h1, h2, _⟩ := workerLoop_counterJob outcome k Counters.fresh
  rw [h1, h2, List.range_eq_range']
  simp [Counters.fresh]

theorem countP_range_le (outcome : Nat → Bool) (k : Nat) :
    (List.range k).countP outcome ≤ k := by
  have := List.countP_le_length (p := outcome) (l := List.range k)
  simpa using this

theorem worker_counterJob (wid : Int) (num c : Nat) (outcome : Nat → Bool)
    (now0 now1 : Time) (npw : Int) (h : num_per_worker num c = some npw) :
    ∃ r, worker wid num c (counterJob outcome) Counters.fresh now0 now1 = some r ∧
      r.wid = wid ∧ r.startTime = now0 ∧ r.endTime = now1 ∧
      r.count = (npw.toNat : Int) ∧
      r.success = ((List.range npw.toNat).countP outcome : Int) := by
  obtain ⟨h1, h2⟩ := workerLoop_fresh outcome npw.toNat
  unfold worker
  rw [h]
  exact ⟨_, rfl, rfl, rfl, rfl, h1, h2⟩

theorem ceilDiv_eq_natCeil {n c : Nat} (hc : 0 < c) (hn : 0 < n) :
    ceilDiv n c = Nat.ceil ((n : ℚ) / (c : ℚ)) := by
  obtain ⟨h1, h2⟩ := ceilDiv_spec (n := n) hc
  have hq := ceilDiv_pos hc hn
  have hcq : (0 : ℚ) < (c : ℚ) := by exact_mod_cast hc
  symm
  rw [Nat.ceil_eq_iff (by omega)]
  constructor
  · rw [lt_div_iff₀ hcq]
    have : (ceilDiv n c - 1) * c < n := by
      have e : (ceilDiv n c - 1) * c = ceilDiv n c * c - c := by
        rw [Nat.sub_mul, one_mul]
      omega
    exact_mod_cast this
  · rw [div_le_iff₀ hcq]
    exact_mod_cast h1

/-! ## The loop of `reportResult` -/

theorem reportLoop_append (rs : List Result) (r : Result) :
    reportLoop (rs ++ [r]) = reportStep (reportLoop rs) r := by
  simp [reportLoop, List.foldl_append]

theorem reportStep_firstTime (a : Totals) (r : Result) :
    (reportStep a r).firstTime =
      if a.firstTime = 0 ∨ r.startTime < a.firstTime then r.startTime else a.firstTime := by
  simp [reportStep, Time.IsZero, Time.After]

theorem reportStep_lastTime (a : Totals) (r : Result) :
    (reportStep a r).lastTime =
      if a.lastTime < r.endTime then r.endTime else a.lastTime := by
  simp [reportStep, Time.Before]

theorem foldl_reportStep_totals (rs : List Result) (a : Totals) :
    wrapInt (rs.foldl reportStep a).totalRequest =
      wrapInt (a.totalRequest + (rs.map Result.count).sum) ∧
    wrapInt (rs.foldl reportStep a).successRequest =
      wrapInt (a.successRequest + (rs.map Result.success).sum) := by
  induction rs generalizing a with
  | nil => simp
  | cons r rs ih =>
    obtain ⟨h1, h2⟩ := ih (reportStep a r)
    rw [List.foldl_cons, h1, h2]
    simp [reportStep, wrapInt_wrapInt_add, add_assoc]

theorem foldl_reportStep_fits (rs : List Result) (a : Totals)
    (h1 : minInt ≤ a.totalRequest ∧ a.totalRequest ≤ maxInt)
    (h2 : minInt ≤ a.successRequest ∧ a.successRequest ≤ maxInt) :
    (minInt ≤ (rs.foldl reportStep a).totalRequest ∧
      (rs.foldl reportStep a).totalRequest ≤ maxInt) ∧
    (minInt ≤ (rs.foldl reportStep a).successRequest ∧
      (rs.foldl reportStep a).successRequest ≤ maxInt) := by
  induction rs generalizing a with
  | nil => exact ⟨h1, h2⟩
  | cons r rs ih =>
    rw [List.foldl_cons]
    exact ih (reportStep a r) (wrapInt_fits _) (wrapInt_fits _)

/-- The totals of the loop are the sums of the counts, wrapped to Go's `int`. -/
theorem reportLoop_totals (rs : List Result) :
    (reportLoop rs).totalRequest = wrapInt (rs.map Result.count).sum ∧
    (reportLoop rs).successRequest = wrapInt (rs.map Result.success).sum := by
  obtain ⟨h1, h2⟩ := foldl_reportStep_totals rs Totals.zero
  obtain ⟨⟨f1, f2⟩, ⟨f3, f4⟩⟩ := foldl_reportStep_fits rs Totals.zero
    (by decide) (by decide)
  simp only [Totals.zero, zero_add] at h1 h2
  exact ⟨(wrapInt_of_fits f1 f2).symm.trans h1, (wrapInt_of_fits f3 f4).symm.trans h2⟩

/-- With every start non-zero and every end after the zero `Time`, after a
non-empty list the loop holds the least start and the greatest end. -/
theorem reportLoop_times (rs : List Result) (hne : rs ≠ [])
    (hnz : ∀ r ∈ rs, r.startTime ≠ 0 ∧ 0 < r.endTime) :
    ((∃ r ∈ rs, (reportLoop rs).firstTime = r.startTime) ∧
      ∀ r ∈ rs, (reportLoop rs).firstTime ≤ r.startTime) ∧
    ((∃ r ∈ rs, (reportLoop rs).lastTime = r.endTime) ∧
      ∀ r ∈ rs, r.endTime ≤ (reportLoop rs).lastTime) := by
  induction rs using List.reverseRecOn with
  | nil => exact absurd rfl hne
  | append_singleton l x ih =>
    have hx := hnz x (by simp)
    rw [reportLoop_append, reportStep_firstTime, reportStep_lastTime]
    rcases List.eq_nil_or_concat l with hl | ⟨l', y, hl'⟩
    · subst hl
      have hx2 : (0 : Time) < x.endTime := hx.2
      have h0 : (reportLoop []).firstTime = 0 := rfl
      have h1 : (reportLoop []).lastTime = 0 := rfl
      rw [h0, h1, if_pos (Or.inl rfl), if_pos hx2]
      simp
    · have hlne : l ≠ [] := by rw [hl']; simp
      obtain ⟨⟨⟨rf, hrf, hfe⟩, hfl⟩, ⟨⟨rl, hrl, hle⟩, hll⟩⟩ :=
        ih hlne (fun r hr => hnz r (by simp [hr]))
      have hf0 : (reportLoop l).firstTime ≠ 0 := by
        rw [hfe]; exact (hnz rf (by simp [hrf])).1
      refine ⟨⟨?_, ?_⟩, ⟨?_, ?_⟩⟩
      · by_cases hlt : x.startTime < (reportLoop l).firstTime
        · rw [if_pos (Or.inr hlt)]
          exact ⟨x, by simp, rfl⟩
        · rw [if_neg (by rintro (h | h); exact hf0 h; exact hlt h)]
          exact ⟨rf, by simp [hrf], hfe⟩
      · intro r hr
        rw [List.mem_append, List.mem_singleton] at hr
        by_cases hlt : x.startTime < (reportLoop l).firstTime
        · rw [if_pos (Or.inr hlt)]
          rcases hr with hr | hr
          · exact le_trans (le_of_lt hlt) (hfl r hr)
          · rw [hr]
        · rw [if_neg (by rintro (h | h); exact hf0 h; exact hlt h)]
          rcases hr with hr | hr
          · exact hfl r hr
          · rw [hr]; exact not_lt.1 hlt
      · by_cases hlt : (reportLoop l).lastTime < x.endTime
        · rw [if_pos hlt]
          exact ⟨x, by simp, rfl⟩
        · rw [if_neg hlt]
          exact ⟨rl, by simp [hrl], hle⟩
      · intro r hr
        rw [List.mem_append, List.mem_singleton] at hr
        by_cases hlt : (reportLoop l).lastTime < x.endTime
        · rw [if_pos hlt]
          rcases hr with hr | hr
          · exact le_trans (hll r hr) (le_of_lt hlt)
          · rw [hr]
        · rw [if_neg hlt]
          rcases hr with hr | hr
          · exact hll r hr
          · rw [hr]; exact not_lt.1 hlt

/-- The least start and the greatest end do not depend on the order. -/
theorem reportLoop_times_perm (rs rs' : List Result) (hp : rs'.Perm rs) (hne : rs ≠ [])
    (hnz : ∀ r ∈ rs, r.startTime ≠ 0 ∧ 0 < r.endTime) :
    (reportLoop rs').firstTime = (reportLoop rs).firstTime ∧
    (reportLoop rs').lastTime = (reportLoop rs).lastTime := by
  have hne' : rs' ≠ [] := by
    intro h
    rw [h] at hp
    exact hne hp.symm.eq_nil
  have hnz' : ∀ r ∈ rs', r.startTime ≠ 0 ∧ 0 < r.endTime :=
    fun r hr => hnz r (hp.mem_iff.1 hr)
  obtain ⟨⟨⟨a, ha, hae⟩, hal⟩, ⟨⟨b, hb, hbe⟩, hbl⟩⟩ := reportLoop_times rs hne hnz
  obtain ⟨⟨⟨a', ha', hae'⟩, hal'⟩, ⟨⟨b', hb', hbe'⟩, hbl'⟩⟩ := reportLoop_times rs' hne' hnz'
  constructor
  · apply le_antisymm
    · rw [hae]; exact hal' a (hp.mem_iff.2 ha)
    · rw [hae']; exact hal a' (hp.mem_iff.1 ha')
  · apply le_antisymm
    · rw [hbe']; exact hbl b' (hp.mem_iff.1 hb')
    · rw [hbe]; exact hbl' b (hp.mem_iff.2 hb)

theorem intDiv_of_lt {a b : Int} (h0 : 0 ≤ a) (hlt : a < b) : intDiv a b = .ok 0 := by
  have hb : b ≠ 0 := by omega
  unfold intDiv
  rw [if_neg hb, Int.tdiv_eq_zero_of_lt h0 hlt]
  rfl

theorem Time.Sub_of_fits {t u : Time} (h1 : minDuration ≤ t - u) (h2 : t - u ≤ maxDuration) :
    Time.Sub t u = t - u := by
  unfold Time.Sub
  rw [if_neg (not_lt.2 h2), if_neg (not_lt.2 h1)]

theorem intDiv_zero (a : Int) : intDiv a 0 = .error .integerDivideByZero := by
  simp [intDiv]

/-! ## The result slots -/

theorem waitResultLoop_spec (ch : List Result) (results : List Result)
    (hnd : (ch.map Result.wid).Nodup)
    (hv : ∀ m ∈ ch, 0 ≤ m.wid ∧ m.wid.toNat < results.length) :
    ∃ res, waitResultLoop ch ch.length results = .ok res ∧
      res.length = results.length ∧
      (∀ m ∈ ch, res[m.wid.toNat]? = some m) ∧
      (∀ i, (∀ m ∈ ch, m.wid.toNat ≠ i) → res[i]? = results[i]?) := by
  induction ch generalizing results with
  | nil => exact ⟨results, rfl, rfl, by simp, by simp⟩
  | cons m ch ih =>
    have hm := hv m (by simp)
    rw [List.map_cons, List.nodup_cons] at hnd
    obtain ⟨res, hres, hlen, hmem, hother⟩ := ih (results.set m.wid.toNat m) hnd.2
      (fun m' hm' => by simpa using hv m' (by simp [hm']))
    refine ⟨res, ?_, ?_, ?_, ?_⟩
    · simp only [List.length_cons, waitResultLoop]
      rw [if_pos hm]
      exact hres
    · simpa using hlen
    · intro m' hm'
      rw [List.mem_cons] at hm'
      rcases hm' with rfl | hm'
      · rw [hother]
        · simp [List.getElem?_set, hm.2]
        · intro m'' hm'' heq
          apply hnd.1
          rw [List.mem_map]
          refine ⟨m'', hm'', ?_⟩
          have h1 := (hv m'' (by simp [hm''])).1
          have h2 := hm.1
          omega
      · exact hmem m' hm'
    · intro i hi
      rw [hother i (fun m' hm' => hi m' (by simp [hm']))]
      have := hi m (by simp)
      simp [List.getElem?_set, this]

theorem nodup_range_ofNat (n : Nat) : ((List.range n).map Int.ofNat).Nodup :=
  (List.nodup_range n).map (fun _ _ h => Int.ofNat.inj h)

theorem waitResult_spec (n : Nat) (ch : List Result) (hlen : ch.length = n)
    (hperm : (ch.map Result.wid).Perm ((List.range n).map Int.ofNat)) :
    ∃ res, waitResult ch n = .ok res ∧ res.length = n ∧
      ∀ i, i < n → ∃ m ∈ ch, m.wid = Int.ofNat i ∧ res[i]? = some m := by
  subst hlen
  have hnd : (ch.map Result.wid).Nodup := by
    rw [hperm.nodup_iff]
    exact nodup_range_ofNat _
  have hv : ∀ m ∈ ch,
      0 ≤ m.wid ∧ m.wid.toNat < (List.replicate ch.length Result.zero).length := by
    intro m hm
    have : m.wid ∈ (List.range ch.length).map Int.ofNat :=
      hperm.mem_iff.1 (List.mem_map_of_mem _ hm)
    rw [List.mem_map] at this
    obtain ⟨i, hi, hie⟩ := this
    rw [List.mem_range] at hi
    rw [List.length_replicate, ← hie]
    simp only [Int.ofNat_eq_coe]
    omega
  obtain ⟨res, hres, hl, hmem, _⟩ :=
    waitResultLoop_spec ch (List.replicate ch.length Result.zero) hnd hv
  refine ⟨res, hres, by simpa using hl, ?_⟩
  intro i hi
  have : Int.ofNat i ∈ ch.map Result.wid :=
    hperm.mem_iff.2 (List.mem_map.2 ⟨i, List.mem_range.2 hi, rfl⟩)
  rw [List.mem_map] at this
  obtain ⟨m, hm, hmw⟩ := this
  refine ⟨m, hm, hmw, ?_⟩
  have := hmem m hm
  rw [hmw] at this
  simpa using this

theorem waitResult_perm (n : Nat) (ch ch' : List Result) (hlen : ch.length = n)
    (hperm : (ch.map Result.wid).Perm ((List.range n).map Int.ofNat))
    (hp : ch'.Perm ch) : waitResult ch' n = waitResult ch n := by
  have hlen' : ch'.length = n := by rw [hp.length_eq, hlen]
  have hperm' : (ch'.map Result.wid).Perm ((List.range n).map Int.ofNat) :=
    (hp.map _).trans hperm
  have hnd : (ch.map Result.wid).Nodup := by
    rw [hperm.nodup_iff]
    exact nodup_range_ofNat _
  obtain ⟨res, hres, hl, hs⟩ := waitResult_spec n ch hlen hperm
  obtain ⟨res', hres', hl', hs'⟩ := waitResult_spec n ch' hlen' hperm'
  rw [hres, hres']
  congr 1
  apply List.ext_getElem?
  intro i
  rcases Nat.lt_or_ge i n with hi | hi
  · obtain ⟨m, hm, hmw, hmi⟩ := hs i hi
    obtain ⟨m', hm', hmw', hmi'⟩ := hs' i hi
    rw [hmi, hmi']
    congr 1
    exact List.inj_on_of_nodup_map hnd (hp.mem_iff.1 hm') hm (by rw [hmw, hmw'])
  · rw [List.getElem?_eq_none (by omega), List.getElem?_eq_none (by omega)]

/-! ## The start barrier -/

theorem countP_set_succ {α : Type} (p : α → Bool) (l : List α) (w : Nat) (a b : α)
    (hw : l[w]? = some a) (ha : p a = false) (hb : p b = true) :
    (l.set w b).countP p = l.countP p + 1 := by
  induction l generalizing w with
  | nil => simp at hw
  | cons x xs ih =>
    cases w with
    | zero =>
      simp only [List.getElem?_cons_zero, Option.some.injEq] at hw
      subst hw
      simp [List.countP_cons, ha, hb]
    | succ w =>
      simp only [List.getElem?_cons_succ] at hw
      simp only [List.set_cons_succ, List.countP_cons, ih w hw]
      omega

theorem mem_of_getElem?_eq {α : Type} {l : List α} {w : Nat} {a : α}
    (h : l[w]? = some a) : a ∈ l := by
  rw [List.getElem?_eq_some] at h
  obtain ⟨hw, rfl⟩ := h
  exact List.getElem_mem _

theorem step_inv (n : Nat) (s s' : Sys) (e : Event) (h : Inv n s)
    (hs : step n s e = some s') : Inv n s' := by
  obtain ⟨workers, orch, readyLog, results⟩ := s
  cases e with
  | orch =>
    cases orch with
    | spawn i =>
      simp only [step] at hs
      simp only [Inv] at h
      obtain ⟨h1, h2, h3, h4⟩ := h
      by_cases hi : i < n
      · rw [if_pos hi] at hs
        cases hs
        simp only [Inv]
        refine ⟨by simp [h1], hi, ?_, h4⟩
        intro pc hpc
        rw [List.mem_append, List.mem_singleton] at hpc
        rcases hpc with hpc | hpc
        · exact h3 pc hpc
        · exact hpc
      · rw [if_neg hi] at hs
        cases hs
        simp only [Inv]
        refine ⟨by omega, fun pc hpc => Or.inl (h3 pc hpc), ?_, by simpa using h4⟩
        rw [List.countP_eq_zero]
        intro pc hpc
        rw [h3 pc hpc]
        decide
    | waitReady i =>
      simp only [step] at hs
      simp only [Inv] at h
      obtain ⟨h1, h2, h3, h4⟩ := h
      by_cases hi : i < n
      · rw [if_pos hi] at hs
        cases hs
      · rw [if_neg hi] at hs
        cases hs
        simp only [Inv]
        have hle : i ≤ n := by
          rw [← h3, ← h1]
          exact List.countP_le_length _
        have hin : i = n := by omega
        subst hin
        refine ⟨h1, ?_, h4⟩
        have hall := (List.countP_eq_length (p := fun pc => decide (pc = WorkerPc.awaitStart))
          (l := workers)).1 (by rw [h3, h1])
        intro pc hpc
        have := hall pc hpc
        simp only [decide_eq_true_eq] at this
        rw [this]
        rfl
    | release i =>
      simp only [step] at hs
      simp only [Inv] at h
      by_cases hi : i < n
      · rw [if_pos hi] at hs
        cases hs
      · rw [if_neg hi] at hs
        cases hs
        exact h
    | waitResult i =>
      simp only [step] at hs
      simp only [Inv] at h
      by_cases hi : i < n
      · rw [if_pos hi] at hs
        cases hs
      · rw [if_neg hi] at hs
        cases hs
        exact h
    | report => simp [step] at hs
  | recv w =>
    simp only [step] at hs
    cases hw : workers[w]? with
    | none => simp [hw] at hs
    | some pc =>
      have hmem : pc ∈ workers := mem_of_getElem?_eq hw
      rw [hw] at hs
      cases pc with
      | sendReady =>
        simp only [WorkerPc.send] at hs
        cases orch with
        | waitReady i =>
          simp only [Inv] at h
          obtain ⟨h1, h2, h3, h4⟩ := h
          by_cases hi : i < n
          · simp only [if_pos hi, Option.some.injEq] at hs
            subst hs
            simp only [Inv]
            refine ⟨by simpa using h1, ?_, ?_, ?_⟩
            · intro pc hpc
              rcases List.mem_or_eq_of_mem_set hpc with hpc | hpc
              · exact h2 pc hpc
              · exact Or.inr hpc
            · rw [countP_set_succ _ workers w WorkerPc.sendReady WorkerPc.awaitStart hw
                (by decide) (by decide), h3]
            · rw [h4, List.replicate_succ']
          · simp [if_neg hi] at hs
        | waitResult i =>
          simp only [Inv] at h
          obtain ⟨h1, h2, h3⟩ := h
          have := h2 _ hmem
          simp [WorkerPc.pastReady] at this
        | spawn i => simp at hs
        | release i => simp at hs
        | report => simp at hs
      | sendFinal =>
        simp only [WorkerPc.send] at hs
        cases orch with
        | waitReady i =>
          simp only [Inv] at h
          obtain ⟨h1, h2, h3, h4⟩ := h
          rcases h2 _ hmem with h5 | h5 <;> cases h5
        | waitResult i =>
          simp only [Inv] at h
          obtain ⟨h1, h2, h3⟩ := h
          by_cases hi : i < n
          · simp only [if_pos hi, Option.some.injEq] at hs
            subst hs
            simp only [Inv]
            refine ⟨by simpa using h1, ?_, h3⟩
            intro pc hpc
            rcases List.mem_or_eq_of_mem_set hpc with hpc | hpc
            · exact h2 pc hpc
            · rw [hpc]; rfl
          · simp [if_neg hi] at hs
        | spawn i => simp at hs
        | release i => simp at hs
        | report => simp at hs
      | awaitStart => simp [WorkerPc.send] at hs
      | running => simp [WorkerPc.send] at hs
      | done => simp [WorkerPc.send] at hs
  | start w =>
    simp only [step] at hs
    cases orch with
    | release i =>
      cases hw : workers[w]? with
      | none => simp [hw] at hs
      | some pc =>
        rw [hw] at hs
        cases pc with
        | awaitStart =>
          simp only [Inv] at h
          obtain ⟨h1, h2, h3⟩ := h
          by_cases hi : i < n
          · simp only [if_pos hi, Option.some.injEq] at hs
            subst hs
            simp only [Inv]
            refine ⟨by simpa using h1, ?_, h3⟩
            intro pc hpc
            rcases List.mem_or_eq_of_mem_set hpc with hpc | hpc
            · exact h2 pc hpc
            · rw [hpc]; rfl
          · simp [if_neg hi] at hs
        | sendReady => simp at hs
        | running => simp at hs
        | sendFinal => simp at hs
        | done => simp at hs
    | spawn i => simp at hs
    | waitReady i => simp at hs
    | waitResult i => simp at hs
    | report => simp at hs
  | work w =>
    simp only [step] at hs
    cases hw : workers[w]? with
    | none => simp [hw] at hs
    | some pc =>
      have hmem : pc ∈ workers := mem_of_getElem?_eq hw
      rw [hw] at hs
      cases pc with
      | running =>
        simp only [Option.some.injEq] at hs
        subst hs
        cases orch with
        | spawn i =>
          simp only [Inv] at h
          have := h.2.2.1 _ hmem
          cases this
        | waitReady i =>
          simp only [Inv] at h
          rcases h.2.1 _ hmem with h5 | h5 <;> cases h5
        | release i =>
          simp only [Inv] at h ⊢
          refine ⟨by simpa using h.1, ?_, h.2.2⟩
          intro pc hpc
          rcases List.mem_or_eq_of_mem_set hpc with hpc | hpc
          · exact h.2.1 pc hpc
          · rw [hpc]; rfl
        | waitResult i =>
          simp only [Inv] at h ⊢
          refine ⟨by simpa using h.1, ?_, h.2.2⟩
          intro pc hpc
          rcases List.mem_or_eq_of_mem_set hpc with hpc | hpc
          · exact h.2.1 pc hpc
          · rw [hpc]; rfl
        | report =>
          simp only [Inv] at h ⊢
          refine ⟨by simpa using h.1, ?_, h.2.2⟩
          intro pc hpc
          rcases List.mem_or_eq_of_mem_set hpc with hpc | hpc
          · exact h.2.1 pc hpc
          · rw [hpc]; rfl
      | sendReady => simp at hs
      | awaitStart => simp at hs
      | sendFinal => simp at hs
      | done => simp at hs

theorem run_inv (n : Nat) (es : List Event) (s s' : Sys) (h : Inv n s)
    (hr : run n s es = some s') : Inv n s' := by
  induction es generalizing s with
  | nil =>
    simp only [run, Option.some.injEq] at hr
    rw [← hr]; exact h
  | cons e es ih =>
    simp only [run] at hr
    cases hstep : step n s e with
    | none => simp [hstep] at hr
    | some s1 =>
      rw [hstep] at hr
      exact ih s1 (step_inv n s s1 e h hstep) hr

theorem inv_init (n : Nat) : Inv n Sys.init := by
  simp [Inv, Sys.init]

theorem reachable_inv (n : Nat) (s : Sys) (h : Reachable n s) : Inv n s := by
  obtain ⟨es, hes⟩ := h
  exact run_inv n es Sys.init s (inv_init n) hes

/-- The protocol runs to the end: with two workers, a schedule in which worker 1
is ready, started and finished first reaches `reportResult` with both results. -/
theorem run_two_workers :
    run 2 Sys.init
      [.orch, .orch, .orch, .recv 1, .recv 0, .orch, .start 1, .work 1, .start 0,
        .orch, .recv 1, .work 0, .recv 0, .orch] =
      some ⟨[.done, .done], .report, [.ready, .ready], [.final 1, .final 0]⟩ := by
  decide

/-- The barrier, from the invariant. -/
theorem inv_barrier (n : Nat) (s : Sys) (h : Inv n s) :
    (∀ (w : Nat) (pc : WorkerPc), s.workers[w]? = some pc → pc.pastStart = true →
      s.readyLog = List.replicate n Msg.ready ∧ s.workers.length = n ∧
        ∀ pc' ∈ s.workers, pc'.pastReady = true) ∧
    (∀ m ∈ s.readyLog, m = Msg.ready) ∧ s.readyLog.length ≤ n := by
  unfold Inv at h
  cases ho : s.orch with
  | spawn i =>
    rw [ho] at h
    obtain ⟨h1, h2, h3, h4⟩ := h
    refine ⟨?_, by simp [h4], by simp [h4]⟩
    intro w pc hw hp
    rw [h3 pc (mem_of_getElem?_eq hw)] at hp
    cases hp
  | waitReady i =>
    rw [ho] at h
    obtain ⟨h1, h2, h3, h4⟩ := h
    have hle : i ≤ n := by
      rw [← h3, ← h1]
      exact List.countP_le_length _
    refine ⟨?_, ?_, by simp [h4, hle]⟩
    · intro w pc hw hp
      rcases h2 pc (mem_of_getElem?_eq hw) with h5 | h5 <;> rw [h5] at hp <;> cases hp
    · intro m hm
      rw [h4] at hm
      exact List.eq_of_mem_replicate hm
  | release i =>
    rw [ho] at h
    obtain ⟨h1, h2, h3⟩ := h
    exact ⟨fun _ _ _ _ => ⟨h3, h1, h2⟩,
      fun m hm => List.eq_of_mem_replicate (by simpa [h3] using hm), by simp [h3]⟩
  | waitResult i =>
    rw [ho] at h
    obtain ⟨h1, h2, h3⟩ := h
    exact ⟨fun _ _ _ _ => ⟨h3, h1, h2⟩,
      fun m hm => List.eq_of_mem_replicate (by simpa [h3] using hm), by simp [h3]⟩
  | report =>
    rw [ho] at h
    obtain ⟨h1, h2, h3⟩ := h
    exact ⟨fun _ _ _ _ => ⟨h3, h1, h2⟩,
      fun m hm => List.eq_of_mem_replicate (by simpa [h3] using hm), by simp [h3]⟩

/-! # The claims -/

/-- C1, amended: for every concurrency `c ≥ 1` and every `totalIterations` `n`
with `1 ≤ n ≤ 2 ^ 53`, the share that `worker` computes through `float64` is
`ceil(n / c)`, a worker with the counting job ends with `count = ceil(n / c)`,
and the sum `c * ceil(n / c)` of the shares lies between `n` and `n + c - 1`. -/
theorem worker_share_ceil (c n : Nat) (hc : 1 ≤ c) (hn : 1 ≤ n) (hn53 : n ≤ 2 ^ 53) :
    num_per_worker n c = some (Int.ofNat (ceilDiv n c)) ∧
    ceilDiv n c = Nat.ceil ((n : ℚ) / (c : ℚ)) ∧
    (∀ (wid : Int) (outcome : Nat → Bool) (now0 now1 : Time),
      ∃ r, worker wid n c (counterJob outcome) Counters.fresh now0 now1 = some r ∧
        r.count = Int.ofNat (ceilDiv n c)) ∧
    n ≤ c * ceilDiv n c ∧ c * ceilDiv n c ≤ n + c - 1 := by
  have hnum := num_per_worker_eq_ceilDiv hc hn hn53
  obtain ⟨h1, h2⟩ := ceilDiv_spec (n := n) (c := c) hc
  refine ⟨hnum, ceilDiv_eq_natCeil hc hn, ?_, ?_, ?_⟩
  · intro wid outcome now0 now1
    obtain ⟨r, hr, _, _, _, hcount, _⟩ :=
      worker_counterJob wid n c outcome now0 now1 _ hnum
    exact ⟨r, hr, by simpa using hcount⟩
  · rw [Nat.mul_comm]; exact h1
  · rw [Nat.mul_comm]; omega

/-- C1 at `c = 4`, `n = 10`: three iterations for each worker, twelve in all. -/
theorem worker_share_ceil_witness :
    (1 ≤ 4 ∧ 1 ≤ 10 ∧ 10 ≤ 2 ^ 53) ∧
    num_per_worker 10 4 = some 3 ∧
    (∃ r, worker 0 10 4 (counterJob fun _ => true) Counters.fresh 1 2 = some r ∧
      r.count = 3) ∧
    4 * ceilDiv 10 4 = 12 := by
  have h := worker_share_ceil 4 10 (by decide) (by decide) (by decide)
  have e : ceilDiv 10 4 = 3 := by decide
  rw [e] at h
  exact ⟨by decide, h.1, h.2.2.1 0 _ 1 2, by decide⟩

/-- C1 as stated fails at `c = 1`, `n = 2 ^ 53 + 1`: `float64(n)` is `2 ^ 53`, so
the share is `2 ^ 53`, not `ceil(n / 1) = n`, and the total count is below `n`. -/
theorem worker_share_ceil_counterexample :
    num_per_worker 9007199254740993 1 = some 9007199254740992 ∧
    ceilDiv 9007199254740993 1 = 9007199254740993 ∧
    ∃ r, worker 0 9007199254740993 1 (counterJob fun _ => true) Counters.fresh 1 2 = some r ∧
      r.count = 9007199254740992 ∧ 1 * r.count < 9007199254740993 := by
  have hnum : num_per_worker 9007199254740993 1 = some 9007199254740992 := by decide
  obtain ⟨r, hr, _, _, _, hcount, _⟩ :=
    worker_counterJob 0 9007199254740993 1 (fun _ => true) 1 2 _ hnum
  have hc : r.count = 9007199254740992 := by rw [hcount]; decide
  exact ⟨hnum, by decide, r, hr, hc, by rw [hc]; decide⟩

/-- C2, the code on the domain of the claim: with `0 ≤ successRequest ≤
totalRequest` and `totalRequest > 0` the rate that `reportResult` prints is
`successRequest / totalRequest * 100` in integer arithmetic, which is `100` when
all requests succeeded and `0` otherwise, not the truncated percentage. -/
theorem successRate_zero_or_hundred (verbose concurrency : Int) (rs : List Result)
    (h0 : 0 ≤ (reportLoop rs).successRequest)
    (hle : (reportLoop rs).successRequest ≤ (reportLoop rs).totalRequest)
    (ht : 0 < (reportLoop rs).totalRequest) :
    ∃ tail, (reportResult verbose concurrency rs).2 = .ok tail ∧
      tail.successRate =
        if (reportLoop rs).successRequest = (reportLoop rs).totalRequest then 100 else 0 := by
  unfold reportResult
  simp only
  by_cases he : (reportLoop rs).successRequest = (reportLoop rs).totalRequest
  · rw [he, intDiv_self ht, if_pos rfl]
    exact ⟨_, rfl, show wrapInt (1 * 100) = 100 by decide⟩
  · rw [intDiv_of_lt h0 (lt_of_le_of_ne hle he), if_neg he]
    exact ⟨_, rfl, show wrapInt (0 * 100) = 0 by decide⟩

/-- C2 at 199 successes out of 200 requests: the printed rate is `0`, where the
truncated percentage is `99`. -/
theorem successRate_zero_or_hundred_witness :
    (reportLoop [⟨0, 1, 2, 0, 200, 199⟩]).successRequest = 199 ∧
    (reportLoop [⟨0, 1, 2, 0, 200, 199⟩]).totalRequest = 200 ∧
    Int.tdiv (199 * 100) 200 = 99 ∧
    ∃ tail, (reportResult 0 1 [⟨0, 1, 2, 0, 200, 199⟩]).2 = .ok tail ∧
      tail.successRate = 0 := by
  have h := successRate_zero_or_hundred 0 1 [⟨0, 1, 2, 0, 200, 199⟩]
    (by decide) (by decide) (by decide)
  obtain ⟨tail, ht, hr⟩ := h
  refine ⟨by decide, by decide, by decide, tail, ht, ?_⟩
  rw [hr]
  decide

/-- C3: for every `n` and every arrival order `ch` of `n` final Results whose
worker indices are exactly `0, ..., n-1`, `waitResult` returns an array of
length `n` whose slot `i` holds the Result sent by worker `i`, and every other
arrival order of the same Results gives the same array. -/
theorem waitResult_slot_by_wid (n : Nat) (ch : List Result) (hlen : ch.length = n)
    (hwid : (ch.map Result.wid).Perm ((List.range n).map Int.ofNat)) :
    ∃ res, waitResult ch n = .ok res ∧ res.length = n ∧
      (∀ i, i < n → ∃ m ∈ ch, m.wid = Int.ofNat i ∧ res[i]? = some m) ∧
      ∀ ch' : List Result, ch'.Perm ch → waitResult ch' n = .ok res := by
  obtain ⟨res, hres, hl, hs⟩ := waitResult_spec n ch hlen hwid
  refine ⟨res, hres, hl, hs, ?_⟩
  intro ch' hp
  rw [waitResult_perm n ch ch' hlen hwid hp, hres]

/-- C3 with two workers, worker 1 finishing first. -/
theorem waitResult_slot_by_wid_witness :
    ([(⟨1, 5, 9, 0, 3, 2⟩ : Result), ⟨0, 4, 8, 0, 3, 3⟩].length = 2 ∧
      ([(⟨1, 5, 9, 0, 3, 2⟩ : Result), ⟨0, 4, 8, 0, 3, 3⟩].map Result.wid).Perm
        ((List.range 2).map Int.ofNat)) ∧
    ∃ res, waitResult [⟨1, 5, 9, 0, 3, 2⟩, ⟨0, 4, 8, 0, 3, 3⟩] 2 = .ok res ∧
      (res.map Result.wid) = [0, 1] := by
  have hp : ([(⟨1, 5, 9, 0, 3, 2⟩ : Result), ⟨0, 4, 8, 0, 3, 3⟩].map Result.wid).Perm
      ((List.range 2).map Int.ofNat) := by decide
  obtain ⟨res, hres, _, _, _⟩ :=
    waitResult_slot_by_wid 2 [⟨1, 5, 9, 0, 3, 2⟩, ⟨0, 4, 8, 0, 3, 3⟩] rfl hp
  refine ⟨⟨rfl, hp⟩, res, hres, ?_⟩
  have he : waitResult [⟨1, 5, 9, 0, 3, 2⟩, ⟨0, 4, 8, 0, 3, 3⟩] 2 =
      .ok [⟨0, 4, 8, 0, 3, 3⟩, ⟨1, 5, 9, 0, 3, 2⟩] := rfl
  rw [he] at hres
  cases hres
  rfl

/-- C4: in every state that `runBenchmark`, `waitReady` and the workers can reach
over the two unbuffered channels, a worker that is past its start-token receive
implies that `waitReady` has received all `n` ready messages and that every one of
the `n` workers has completed the send of its ready sentinel; and the messages
consumed by `waitReady`, at most `n`, are all ready sentinels, never a final
Result. -/
theorem start_barrier (n : Nat) (s : Sys) (h : Reachable n s) :
    (∀ (w : Nat) (pc : WorkerPc), s.workers[w]? = some pc → pc.pastStart = true →
      s.readyLog = List.replicate n Msg.ready ∧ s.workers.length = n ∧
        ∀ pc' ∈ s.workers, pc'.pastReady = true) ∧
    (∀ m ∈ s.readyLog, m = Msg.ready) ∧ s.readyLog.length ≤ n :=
  inv_barrier n s (reachable_inv n s h)

/-- C4 with two workers: worker 1 is ready first and is started first, and runs
to its final send while worker 0 still waits for its token. -/
theorem start_barrier_witness :
    Reachable 2 ⟨[.awaitStart, .sendFinal], .release 1, [.ready, .ready], []⟩ ∧
    (⟨[.awaitStart, .sendFinal], .release 1, [.ready, .ready], []⟩ : Sys).readyLog =
      List.replicate 2 Msg.ready := by
  have hr : Reachable 2 ⟨[.awaitStart, .sendFinal], .release 1, [.ready, .ready], []⟩ :=
    ⟨[.orch, .orch, .orch, .recv 1, .recv 0, .orch, .start 1, .work 1], by decide⟩
  exact ⟨hr, ((start_barrier 2 _ hr).1 1 .sendFinal rfl rfl).1⟩

/-- C5, amended: when `totalIterations = 0` every worker's share is zero, and for
every Result array whose counts sum to 0 `reportResult` prints a total of 0 and
then stops on the integer division `successRequest / totalRequest` by zero; it
produces no error result of its own. -/
theorem report_zero_total_faults (verbose concurrency : Int) (rs : List Result)
    (h : (rs.map Result.count).sum = 0) :
    (∀ c : Nat, 1 ≤ c → num_per_worker 0 c = some 0) ∧
    (reportResult verbose concurrency rs).1.totalRequest = 0 ∧
    (reportResult verbose concurrency rs).2 = .error .integerDivideByZero := by
  have ht : (reportLoop rs).totalRequest = 0 := by
    rw [(reportLoop_totals rs).1, h]
    decide
  refine ⟨fun c hc => num_per_worker_zero hc, ht, ?_⟩
  unfold reportResult
  simp only
  rw [ht, intDiv_zero]

/-- C5 at two workers that ran no iteration. -/
theorem report_zero_total_faults_witness :
    ([(⟨0, 5, 6, 0, 0, 0⟩ : Result), ⟨1, 5, 6, 0, 0, 0⟩].map Result.count).sum = 0 ∧
    (reportResult 0 2 [⟨0, 5, 6, 0, 0, 0⟩, ⟨1, 5, 6, 0, 0, 0⟩]).2 =
      .error .integerDivideByZero :=
  ⟨by decide,
    (report_zero_total_faults 0 2 [⟨0, 5, 6, 0, 0, 0⟩, ⟨1, 5, 6, 0, 0, 0⟩] (by decide)).2.2⟩

/-- C5 as stated fails with one worker and `totalIterations = 0`: the worker
runs no iteration, its count is 0, and `reportResult` on its Result divides by
zero. -/
theorem report_zero_total_counterexample :
    ∃ r, worker 0 0 1 (counterJob fun _ => true) Counters.fresh 5 6 = some r ∧
      r.count = 0 ∧ (reportResult 0 1 [r]).2 = .error .integerDivideByZero := by
  refine ⟨⟨0, 5, 6, seconds (Time.Sub 6 5), 0, 0⟩, rfl, rfl, ?_⟩
  unfold reportResult
  simp only
  have ht : (reportLoop [⟨0, 5, 6, seconds (Time.Sub 6 5), 0, 0⟩]).totalRequest = 0 := rfl
  rw [ht, intDiv_zero]

/-- C6, amended: for every non-empty Result array in which every `startTime` is
non-zero, every `endTime` is after Go's zero `Time`, and the greatest `endTime`
minus the least `startTime` fits a `Duration`, the loop of `reportResult` ends
with `firstTime` the least `startTime` and `lastTime` the greatest `endTime`, so
`lastTime.Sub(firstTime)` is their difference and `takenTime` is its `Seconds()`;
every reordering of the array gives the same values. -/
theorem reportLoop_min_max (rs : List Result) (hne : rs ≠ [])
    (hnz : ∀ r ∈ rs, r.startTime ≠ 0 ∧ 0 < r.endTime)
    (hfit : ∀ rmin ∈ rs, ∀ rmax ∈ rs,
      (∀ r ∈ rs, rmin.startTime ≤ r.startTime) → (∀ r ∈ rs, r.endTime ≤ rmax.endTime) →
      minDuration ≤ rmax.endTime - rmin.startTime ∧
        rmax.endTime - rmin.startTime ≤ maxDuration) :
    (∃ rmin ∈ rs, ∃ rmax ∈ rs,
      (∀ r ∈ rs, rmin.startTime ≤ r.startTime) ∧ (∀ r ∈ rs, r.endTime ≤ rmax.endTime) ∧
      (reportLoop rs).firstTime = rmin.startTime ∧
      (reportLoop rs).lastTime = rmax.endTime ∧
      Time.Sub (reportLoop rs).lastTime (reportLoop rs).firstTime =
        rmax.endTime - rmin.startTime ∧
      takenTime rs = seconds (rmax.endTime - rmin.startTime)) ∧
    ∀ rs' : List Result, rs'.Perm rs →
      (reportLoop rs').firstTime = (reportLoop rs).firstTime ∧
      (reportLoop rs').lastTime = (reportLoop rs).lastTime ∧
      takenTime rs' = takenTime rs := by
  obtain ⟨⟨⟨a, ha, hae⟩, hal⟩, ⟨⟨b, hb, hbe⟩, hbl⟩⟩ := reportLoop_times rs hne hnz
  have hmin : ∀ r ∈ rs, a.startTime ≤ r.startTime := by
    intro r hr; rw [← hae]; exact hal r hr
  have hmax : ∀ r ∈ rs, r.endTime ≤ b.endTime := by
    intro r hr; rw [← hbe]; exact hbl r hr
  have hsub : Time.Sub (reportLoop rs).lastTime (reportLoop rs).firstTime =
      b.endTime - a.startTime := by
    rw [hae, hbe]
    exact Time.Sub_of_fits (hfit a ha b hb hmin hmax).1 (hfit a ha b hb hmin hmax).2
  constructor
  · refine ⟨a, ha, b, hb, hmin, hmax, hae, hbe, hsub, ?_⟩
    unfold takenTime
    rw [hsub]
  · intro rs' hp
    obtain ⟨h1, h2⟩ := reportLoop_times_perm rs rs' hp hne hnz
    refine ⟨h1, h2, ?_⟩
    unfold takenTime
    rw [h1, h2]

/-- C6 at two results, the later one first in the array. -/
theorem reportLoop_min_max_witness :
    ([(⟨0, 7, 9, 0, 3, 3⟩ : Result), ⟨1, 5, 12, 0, 3, 3⟩] ≠ [] ∧
      (∀ r ∈ [(⟨0, 7, 9, 0, 3, 3⟩ : Result), ⟨1, 5, 12, 0, 3, 3⟩],
        r.startTime ≠ 0 ∧ 0 < r.endTime) ∧
      minDuration ≤ (12 : Int) - 5 ∧ (12 : Int) - 5 ≤ maxDuration) ∧
    (reportLoop [⟨0, 7, 9, 0, 3, 3⟩, ⟨1, 5, 12, 0, 3, 3⟩]).firstTime = 5 ∧
    (reportLoop [⟨0, 7, 9, 0, 3, 3⟩, ⟨1, 5, 12, 0, 3, 3⟩]).lastTime = 12 ∧
    Time.Sub (reportLoop [⟨0, 7, 9, 0, 3, 3⟩, ⟨1, 5, 12, 0, 3, 3⟩]).lastTime
      (reportLoop [⟨0, 7, 9, 0, 3, 3⟩, ⟨1, 5, 12, 0, 3, 3⟩]).firstTime = 7 ∧
    (reportLoop [⟨1, 5, 12, 0, 3, 3⟩, ⟨0, 7, 9, 0, 3, 3⟩]).firstTime = 5 := by
  have hnz : ∀ r ∈ [(⟨0, 7, 9, 0, 3, 3⟩ : Result), ⟨1, 5, 12, 0, 3, 3⟩],
      r.startTime ≠ 0 ∧ 0 < r.endTime := by
    intro r hr
    simp only [List.mem_cons, List.mem_singleton, List.not_mem_nil, or_false] at hr
    rcases hr with rfl | rfl <;> decide
  have hfit : ∀ rmin ∈ [(⟨0, 7, 9, 0, 3, 3⟩ : Result), ⟨1, 5, 12, 0, 3, 3⟩],
      ∀ rmax ∈ [(⟨0, 7, 9, 0, 3, 3⟩ : Result), ⟨1, 5, 12, 0, 3, 3⟩],
        (∀ r ∈ [(⟨0, 7, 9, 0, 3, 3⟩ : Result), ⟨1, 5, 12, 0, 3, 3⟩],
          rmin.startTime ≤ r.startTime) →
        (∀ r ∈ [(⟨0, 7, 9, 0, 3, 3⟩ : Result), ⟨1, 5, 12, 0, 3, 3⟩],
          r.endTime ≤ rmax.endTime) →
        minDuration ≤ rmax.endTime - rmin.startTime ∧
          rmax.endTime - rmin.startTime ≤ maxDuration := by
    intro rmin hr rmax hr' _ _
    simp only [List.mem_cons, List.mem_singleton, List.not_mem_nil, or_false] at hr hr'
    rcases hr with rfl | rfl <;> rcases hr' with rfl | rfl <;> decide
  have h := reportLoop_min_max [⟨0, 7, 9, 0, 3, 3⟩, ⟨1, 5, 12, 0, 3, 3⟩] (by simp) hnz hfit
  have hp := (h.2 [⟨1, 5, 12, 0, 3, 3⟩, ⟨0, 7, 9, 0, 3, 3⟩] (List.Perm.swap _ _ _)).1
  exact ⟨⟨by simp, hnz, by decide⟩, rfl, rfl, by decide, by rw [hp]; rfl⟩

/-- C6 as stated fails on non-zero instants. With one result that starts 5 ns
and ends 3 ns before the zero `Time`, `lastTime` stays at the zero `Time`, not at
the greatest `endTime`, and `lastTime.Sub(firstTime)` is 5 ns, not 2 ns. With one
result that starts on 1 January 1970 and ends on 1 January 2300,
`lastTime.Sub(firstTime)` is `maxDuration`, so `takenTime` is 9223372036.854775807
seconds where the difference is 10413792000 seconds. -/
theorem reportLoop_min_max_counterexample :
    ((-5 : Time) ≠ 0 ∧ (-3 : Time) ≠ 0 ∧
      (reportLoop [⟨0, -5, -3, 0, 1, 1⟩]).firstTime = -5 ∧
      (reportLoop [⟨0, -5, -3, 0, 1, 1⟩]).lastTime = 0 ∧
      Time.Sub (reportLoop [⟨0, -5, -3, 0, 1, 1⟩]).lastTime
        (reportLoop [⟨0, -5, -3, 0, 1, 1⟩]).firstTime = 5 ∧
      (-3 : Int) - (-5) = 2) ∧
    ((62135596800000000000 : Time) ≠ 0 ∧ (72549388800000000000 : Time) ≠ 0 ∧
      (reportLoop [⟨0, 62135596800000000000, 72549388800000000000, 0, 1, 1⟩]).firstTime =
        62135596800000000000 ∧
      (reportLoop [⟨0, 62135596800000000000, 72549388800000000000, 0, 1, 1⟩]).lastTime =
        72549388800000000000 ∧
      takenTime [⟨0, 62135596800000000000, 72549388800000000000, 0, 1, 1⟩] =
        seconds 9223372036854775807 ∧
      (72549388800000000000 : Int) - 62135596800000000000 = 10413792000000000000 ∧
      seconds 9223372036854775807 ≠ seconds 10413792000000000000) := by
  have hs : Time.Sub (reportLoop [⟨0, 62135596800000000000, 72549388800000000000, 0, 1, 1⟩]).lastTime
      (reportLoop [⟨0, 62135596800000000000, 72549388800000000000, 0, 1, 1⟩]).firstTime =
        9223372036854775807 := by decide
  refine ⟨by decide, by decide, by decide, by decide, by decide, ?_, by decide, ?_⟩
  · unfold takenTime
    rw [hs]
  · unfold seconds
    norm_num

/-- C7, amended: for every Result array whose sum of `count` and whose sum of
`success` fit Go's `int`, the `Total Requests` figure of `reportResult` is the
sum of `count` over the results and its `Success Requests` figure is the sum of
`success`. -/
theorem report_totals_are_sums (verbose concurrency : Int) (rs : List Result)
    (hc : minInt ≤ (rs.map Result.count).sum ∧ (rs.map Result.count).sum ≤ maxInt)
    (hs : minInt ≤ (rs.map Result.success).sum ∧ (rs.map Result.success).sum ≤ maxInt) :
    (reportResult verbose concurrency rs).1.totalRequest = (rs.map Result.count).sum ∧
    (reportResult verbose concurrency rs).1.successRequest =
      (rs.map Result.success).sum := by
  obtain ⟨h1, h2⟩ := reportLoop_totals rs
  exact ⟨h1.trans (wrapInt_of_fits hc.1 hc.2), h2.trans (wrapInt_of_fits hs.1 hs.2)⟩

/-- C7 at four workers with three requests each, one of them failed. -/
theorem report_totals_are_sums_witness :
    ((minInt ≤ ([(⟨0, 5, 9, 0, 3, 3⟩ : Result), ⟨1, 5, 9, 0, 3, 2⟩, ⟨2, 5, 9, 0, 3, 3⟩,
          ⟨3, 5, 9, 0, 3, 3⟩].map Result.count).sum ∧
        ([(⟨0, 5, 9, 0, 3, 3⟩ : Result), ⟨1, 5, 9, 0, 3, 2⟩, ⟨2, 5, 9, 0, 3, 3⟩,
          ⟨3, 5, 9, 0, 3, 3⟩].map Result.count).sum ≤ maxInt) ∧
      (minInt ≤ ([(⟨0, 5, 9, 0, 3, 3⟩ : Result), ⟨1, 5, 9, 0, 3, 2⟩, ⟨2, 5, 9, 0, 3, 3⟩,
          ⟨3, 5, 9, 0, 3, 3⟩].map Result.success).sum ∧
        ([(⟨0, 5, 9, 0, 3, 3⟩ : Result), ⟨1, 5, 9, 0, 3, 2⟩, ⟨2, 5, 9, 0, 3, 3⟩,
          ⟨3, 5, 9, 0, 3, 3⟩].map Result.success).sum ≤ maxInt)) ∧
    (reportResult 0 4 [⟨0, 5, 9, 0, 3, 3⟩, ⟨1, 5, 9, 0, 3, 2⟩, ⟨2, 5, 9, 0, 3, 3⟩,
      ⟨3, 5, 9, 0, 3, 3⟩]).1.totalRequest = 12 ∧
    (reportResult 0 4 [⟨0, 5, 9, 0, 3, 3⟩, ⟨1, 5, 9, 0, 3, 2⟩, ⟨2, 5, 9, 0, 3, 3⟩,
      ⟨3, 5, 9, 0, 3, 3⟩]).1.successRequest = 11 := by
  have h := report_totals_are_sums 0 4 [⟨0, 5, 9, 0, 3, 3⟩, ⟨1, 5, 9, 0, 3, 2⟩,
    ⟨2, 5, 9, 0, 3, 3⟩, ⟨3, 5, 9, 0, 3, 3⟩] (by decide) (by decide)
  exact ⟨⟨by decide, by decide⟩, h.1.trans (by decide), h.2.trans (by decide)⟩

/-- C7 as stated fails at two results with counts `2^63 - 1` and `1`: the sum is
`2^63`, the total that `reportResult` prints is `-2^63`. -/
theorem report_totals_are_sums_counterexample :
    ([(⟨0, 5, 9, 0, 9223372036854775807, 0⟩ : Result), ⟨1, 5, 9, 0, 1, 0⟩].map
        Result.count).sum = 9223372036854775808 ∧
    (reportResult 0 2 [⟨0, 5, 9, 0, 9223372036854775807, 0⟩,
      ⟨1, 5, 9, 0, 1, 0⟩]).1.totalRequest = -9223372036854775808 := by
  decide

/-- C8: for every sequence `outcome` of results of `Job.Request`, a worker with
the counting job whose share is `npw` ends with `success` equal to the number of
iterations `i < npw` with `outcome i = true`, and with `count = npw`. -/
theorem worker_success_counts_true (wid : Int) (num c : Nat) (outcome : Nat → Bool)
    (now0 now1 : Time) (npw : Int) (h : num_per_worker num c = some npw) :
    ∃ r, worker wid num c (counterJob outcome) Counters.fresh now0 now1 = some r ∧
      r.success = Int.ofNat ((List.range npw.toNat).countP outcome) ∧
      r.count = Int.ofNat npw.toNat := by
  obtain ⟨r, hr, _, _, _, hcount, hsucc⟩ :=
    worker_counterJob wid num c outcome now0 now1 npw h
  exact ⟨r, hr, hsucc, hcount⟩

/-- C8 with a `Request` that alternates true and false, `n = 10`, `c = 4`: of the
three iterations two succeed. -/
theorem worker_success_counts_true_witness :
    num_per_worker 10 4 = some 3 ∧
    ∃ r, worker 0 10 4 (counterJob fun i => i % 2 == 0) Counters.fresh 1 2 = some r ∧
      r.success = 2 ∧ r.count = 3 := by
  have hnum : num_per_worker 10 4 = some 3 := by decide
  obtain ⟨r, hr, hs, hc⟩ :=
    worker_success_counts_true 0 10 4 (fun i => i % 2 == 0) 1 2 3 hnum
  exact ⟨hnum, r, hr, by rw [hs]; decide, by rw [hc]; decide⟩

/-- C9: for every run of a worker with the counting job, `0 ≤ success ≤ count`
holds after every number `k` of loop iterations and in the final Result. -/
theorem worker_success_le_count (wid : Int) (num c : Nat) (outcome : Nat → Bool)
    (now0 now1 : Time) (r : Result)
    (h : worker wid num c (counterJob outcome) Counters.fresh now0 now1 = some r) :
    (∀ k : Nat,
      0 ≤ (workerLoop (counterJob outcome) k Counters.fresh).success ∧
      (workerLoop (counterJob outcome) k Counters.fresh).success ≤
        (workerLoop (counterJob outcome) k Counters.fresh).count) ∧
    0 ≤ r.success ∧ r.success ≤ r.count := by
  have hk : ∀ k : Nat,
      0 ≤ (workerLoop (counterJob outcome) k Counters.fresh).success ∧
      (workerLoop (counterJob outcome) k Counters.fresh).success ≤
        (workerLoop (counterJob outcome) k Counters.fresh).count := by
    intro k
    obtain ⟨h1, h2⟩ := workerLoop_fresh outcome k
    have := countP_range_le outcome k
    rw [h1, h2]
    omega
  refine ⟨hk, ?_⟩
  cases hnum : num_per_worker num c with
  | none => simp [worker, hnum] at h
  | some npw =>
    obtain ⟨r', hr', _, _, _, hcount, hsucc⟩ :=
      worker_counterJob wid num c outcome now0 now1 npw hnum
    rw [h] at hr'
    cases hr'
    have := countP_range_le outcome npw.toNat
    rw [hcount, hsucc]
    omega

/-- C9 at `n = 10`, `c = 4` with an alternating `Request`. -/
theorem worker_success_le_count_witness :
    worker 0 10 4 (counterJob fun i => i % 2 == 0) Counters.fresh 1 2 =
      some ⟨0, 1, 2, seconds (Time.Sub 2 1), 3, 2⟩ ∧
    (0 : Int) ≤ 2 ∧ (2 : Int) ≤ 3 := by
  have h := worker_success_le_count 0 10 4 (fun i => i % 2 == 0) 1 2
    ⟨0, 1, 2, seconds (Time.Sub 2 1), 3, 2⟩ rfl
  exact ⟨rfl, h.2⟩

/-- C10: over exact arithmetic, for every concurrency, every `totalRequest > 0`
and every `takenTime > 0`, `reportResult` prints `totalRequest / takenTime` as
requests per second, `concurrency * takenTime * 1000 / totalRequest` as the first
time per request and `takenTime * 1000 / totalRequest` as the second; the first is
`concurrency` times the second, and requests per second times the second is 1000. -/
theorem report_rates (verbose concurrency : Int) (rs : List Result)
    (ht : 0 < (reportLoop rs).totalRequest) (hk : 0 < takenTime rs) :
    ∃ tail, (reportResult verbose concurrency rs).2 = .ok tail ∧
      tail.takenTime = takenTime rs ∧
      tail.requestsPerSecond =
        some (((reportLoop rs).totalRequest : ℚ) / takenTime rs) ∧
      tail.timePerRequest =
        some ((concurrency : ℚ) * takenTime rs * 1000 / ((reportLoop rs).totalRequest : ℚ)) ∧
      tail.timePerRequestAll =
        some (takenTime rs * 1000 / ((reportLoop rs).totalRequest : ℚ)) ∧
      (concurrency : ℚ) * takenTime rs * 1000 / ((reportLoop rs).totalRequest : ℚ) =
        (concurrency : ℚ) * (takenTime rs * 1000 / ((reportLoop rs).totalRequest : ℚ)) ∧
      ((reportLoop rs).totalRequest : ℚ) / takenTime rs *
        (takenTime rs * 1000 / ((reportLoop rs).totalRequest : ℚ)) = 1000 := by
  have hT : ((reportLoop rs).totalRequest : ℚ) ≠ 0 := by
    have : (0 : ℚ) < ((reportLoop rs).totalRequest : ℚ) := by exact_mod_cast ht
    exact ne_of_gt this
  have hK : takenTime rs ≠ 0 := ne_of_gt hk
  have hT' : (reportLoop rs).totalRequest ≠ 0 := by omega
  unfold reportResult
  simp only [intDiv, if_neg hT', floatDiv, if_neg hT, if_neg hK]
  refine ⟨_, rfl, rfl, rfl, rfl, rfl, ?_, ?_⟩
  · ring
  · field_simp
    ring

/-- C10 at one worker, 200 requests in two seconds. -/
theorem report_rates_witness :
    (0 < (reportLoop [⟨0, 1, 2000000001, 2, 200, 199⟩]).totalRequest ∧
      0 < takenTime [⟨0, 1, 2000000001, 2, 200, 199⟩]) ∧
    ∃ tail, (reportResult 0 1 [⟨0, 1, 2000000001, 2, 200, 199⟩]).2 = .ok tail ∧
      tail.requestsPerSecond = some 100 ∧ tail.timePerRequestAll = some 10 := by
  have h1 : (reportLoop [⟨0, 1, 2000000001, 2, 200, 199⟩]).totalRequest = 200 := rfl
  have h2 : takenTime [⟨0, 1, 2000000001, 2, 200, 199⟩] = 2 := by
    have hf : (reportLoop [⟨0, 1, 2000000001, 2, 200, 199⟩]).firstTime = 1 := rfl
    have hl : (reportLoop [⟨0, 1, 2000000001, 2, 200, 199⟩]).lastTime = 2000000001 := rfl
    have hd : Time.Sub 2000000001 1 = 2000000000 := by decide
    unfold takenTime seconds
    rw [hf, hl, hd]
    norm_num
  have hp : 0 < (reportLoop [⟨0, 1, 2000000001, 2, 200, 199⟩]).totalRequest ∧
      0 < takenTime [⟨0, 1, 2000000001, 2, 200, 199⟩] := by
    rw [h1, h2]; constructor <;> norm_num
  obtain ⟨tail, ht, _, hr, _, ha, _, _⟩ :=
    report_rates 0 1 [⟨0, 1, 2000000001, 2, 200, 199⟩] hp.1 hp.2
  refine ⟨hp, tail, ht, ?_, ?_⟩
  · rw [hr, h1, h2]; norm_num
  · rw [ha, h1, h2]; norm_num

end Lb
